import Mathlib

/-!
Verification of the document text-extraction engine of the SmartRecruit
repository (`src/components/Form.tsx`).  Every definition below is a shallow
embedding of the corresponding TypeScript function, operating on `List Char`
(JS strings) and `List Nat` (byte buffers).  Platform primitives that the code
merely calls (the browser `DecompressionStream` and `DOMParser`) are taken as
parameters of the functions that use them, exactly at the call boundary the
source has.
-/

namespace SmartRecruit

/-- The NUL character removed by the sanitizer. -/
def nulChar : Char := Char.ofNat 0

/-- Space-or-tab test used by the `/[ \t]+\n/` replacement. -/
def isSpTab (c : Char) : Bool := c = ' ' || c = '\t'

/-- JavaScript whitespace (the set matched by `\s`, `trim`, `trimEnd`). -/
def isJsWs (c : Char) : Bool :=
  c = ' ' || c = '\t' || c = '\n' || c = '\r' ||
  c = Char.ofNat 0x0b || c = Char.ofNat 0x0c ||
  c = Char.ofNat 0xa0 || c = Char.ofNat 0x1680 ||
  (Char.ofNat 0x2000 ≤ c && c ≤ Char.ofNat 0x200a) ||
  c = Char.ofNat 0x2028 || c = Char.ofNat 0x2029 ||
  c = Char.ofNat 0x202f || c = Char.ofNat 0x205f ||
  c = Char.ofNat 0x3000 || c = Char.ofNat 0xfeff

/-- `value.replace(/\r\n/g, '\n')`: global left-to-right replacement of the
two-character sequence CR LF by LF. -/
def replCRLF : List Char → List Char
  | [] => []
  | [c] => [c]
  | c :: d :: rest =>
    if c = '\r' ∧ d = '\n' then '\n' :: replCRLF rest
    else c :: replCRLF (d :: rest)

/-- `value.replace(/\u0000/g, '')`: removal of every NUL character. -/
def stripNulls (l : List Char) : List Char := l.filter (fun c => c ≠ nulChar)

/-- Worker for `value.replace(/[ \t]+\n/g, '\n')`.  `pending` holds (reversed)
the run of spaces/tabs currently being scanned; the run is dropped when a
newline follows it and kept otherwise. -/
def stripRunGo (pending : List Char) : List Char → List Char
  | [] => pending.reverse
  | c :: rest =>
    if isSpTab c then stripRunGo (c :: pending) rest
    else if c = '\n' then '\n' :: stripRunGo [] rest
    else pending.reverse ++ c :: stripRunGo [] rest

/-- `value.replace(/[ \t]+\n/g, '\n')`. -/
def stripSpTabNl (l : List Char) : List Char := stripRunGo [] l

/-- Worker for the newline-run collapses: a maximal run of `k` newlines is
emitted as `min k cap` newlines (`cap = 2` embeds `/\n{3,}/g → "\n\n"`,
`cap = 1` embeds `/\n{2,}/g → "\n"`; runs no longer than `cap` are of course
left unchanged, matching the regexes which only match longer runs). -/
def collNlGo (cap : Nat) (k : Nat) : List Char → List Char
  | [] => List.replicate (min k cap) '\n'
  | c :: rest =>
    if c = '\n' then collNlGo cap (k + 1) rest
    else List.replicate (min k cap) '\n' ++ c :: collNlGo cap 0 rest

/-- `value.replace(/\n{3,}/g, '\n\n')`. -/
def collapseNl (l : List Char) : List Char := collNlGo 2 0 l

/-- JavaScript `String.prototype.trimEnd`. -/
def jsTrimEnd (l : List Char) : List Char := (l.reverse.dropWhile isJsWs).reverse

/-- JavaScript `String.prototype.trim`. -/
def jsTrim (l : List Char) : List Char := jsTrimEnd (l.dropWhile isJsWs)

/-- `sanitizeExtractedText` (Form.tsx lines 5–11): the shared final
normalization pass applied to every decoder's output. -/
def sanitizeExtractedText (l : List Char) : List Char :=
  jsTrim (collapseNl (stripSpTabNl (stripNulls (replCRLF l))))

/-- The plain-text upload path (Form.tsx lines 305–306): `.txt`, `.md` and
`.rtf` files are read as text and only pass through the sanitizer. -/
def plainTextUpload (content : List Char) : List Char :=
  sanitizeExtractedText content

/-- ASCII apostrophe, built by code point to keep it out of string literals. -/
def apos : Char := Char.ofNat 39

/-- The RTF sample from the spec: `(brace)\rtf1 Hello \(apos)93World\(apos)94(brace)`. -/
def rtfSample : List Char :=
  "\x7b\\rtf1 Hello \\".toList ++ [apos] ++ "93World\\".toList ++ [apos] ++
    "94\x7d".toList

/-- Left curly double quote U+201C, the decoding of the RTF escape `\(apos)93`. -/
def lCurly : Char := Char.ofNat 0x201c

/-- Right curly double quote U+201D, the decoding of the RTF escape `\(apos)94`. -/
def rCurly : Char := Char.ofNat 0x201d

/-! ### Invariant checkers for sanitizer outputs -/

/-- `true` iff some adjacent pair is a space/tab followed by a newline. -/
def hasBadPair : List Char → Bool
  | a :: b :: rest => (isSpTab a && b = '\n') || hasBadPair (b :: rest)
  | _ => false

/-- `true` iff three consecutive newline characters occur somewhere. -/
def hasTripleNl : List Char → Bool
  | a :: b :: c :: rest =>
    (a = '\n' && b = '\n' && c = '\n') || hasTripleNl (b :: c :: rest)
  | _ => false

/-- Head-pair test: `a` followed by the head of `l` is a bad pair. -/
def pairBad (a : Char) (l : List Char) : Bool :=
  match l.head? with
  | some b => isSpTab a && b = '\n'
  | none => false

/-- Head-triple test: `a` followed by the first two of `l` are three newlines. -/
def tripleHead (a : Char) (l : List Char) : Bool :=
  match l with
  | b :: c :: _ => a = '\n' && b = '\n' && c = '\n'
  | _ => false

lemma hasBadPair_cons (a : Char) (l : List Char) :
    hasBadPair (a :: l) = (pairBad a l || hasBadPair l) := by
  cases l <;> simp [hasBadPair, pairBad]

lemma hasBadPair_tail {a : Char} {l : List Char}
    (h : hasBadPair (a :: l) = false) : hasBadPair l = false := by
  rw [hasBadPair_cons] at h
  exact (Bool.or_eq_false_iff.mp h).2

lemma hasTripleNl_cons (a : Char) (l : List Char) :
    hasTripleNl (a :: l) = (tripleHead a l || hasTripleNl l) := by
  match l with
  | [] => simp [hasTripleNl, tripleHead]
  | [b] => simp [hasTripleNl, tripleHead]
  | b :: c :: t => simp [hasTripleNl, tripleHead]

lemma hasTripleNl_tail {a : Char} {l : List Char}
    (h : hasTripleNl (a :: l) = false) : hasTripleNl l = false := by
  rw [hasTripleNl_cons] at h
  exact (Bool.or_eq_false_iff.mp h).2

lemma isSpTab_ne_nl {c : Char} (h : isSpTab c = true) : ¬ c = '\n' := by
  rcases Bool.or_eq_true_iff.mp h with h1 | h1 <;>
    simp only [decide_eq_true_eq] at h1 <;> subst h1 <;> decide

lemma pairBad_eq_false_of_not_spTab {a : Char} (h : isSpTab a = false)
    (l : List Char) : pairBad a l = false := by
  cases l <;> simp [pairBad, h]

lemma hasBadPair_of_all_spTab {l : List Char}
    (h : ∀ a ∈ l, isSpTab a = true) : hasBadPair l = false := by
  induction l with
  | nil => rfl
  | cons a t ih =>
    rw [hasBadPair_cons, Bool.or_eq_false_iff]
    refine ⟨?_, ih fun x hx => h x (List.mem_cons_of_mem _ hx)⟩
    cases t with
    | nil => rfl
    | cons b t' =>
      have hb := h b (by simp)
      simp [pairBad, isSpTab_ne_nl hb]

lemma hasBadPair_replicate_nl (m : Nat) :
    hasBadPair (List.replicate m '\n') = false := by
  induction m with
  | zero => rfl
  | succ n ih =>
    rw [List.replicate_succ, hasBadPair_cons, Bool.or_eq_false_iff]
    exact ⟨pairBad_eq_false_of_not_spTab (by decide) _, ih⟩

lemma hasBadPair_append_false {xs ys : List Char}
    (hx : hasBadPair xs = false) (hy : hasBadPair ys = false)
    (hb : ∀ x y, xs.getLast? = some x → ys.head? = some y →
      ¬(isSpTab x = true ∧ y = '\n')) :
    hasBadPair (xs ++ ys) = false := by
  induction xs with
  | nil => simpa using hy
  | cons a t ih =>
    rw [List.cons_append, hasBadPair_cons, Bool.or_eq_false_iff]
    constructor
    · cases t with
      | nil =>
        simp only [List.nil_append]
        cases hys : ys.head? with
        | none => simp [pairBad, hys]
        | some y =>
          have := hb a y (by simp) hys
          by_cases hsp : isSpTab a = true
          · have hyn : ¬ y = '\n' := fun h => this ⟨hsp, h⟩
            simp [pairBad, hys, hsp, hyn]
          · simp [pairBad, hys, Bool.eq_false_iff.mpr hsp]
      | cons b t' =>
        rw [hasBadPair_cons] at hx
        have := (Bool.or_eq_false_iff.mp hx).1
        simpa [pairBad] using this
    · cases t with
      | nil => simpa using hy
      | cons b t' =>
        exact ih (hasBadPair_tail hx)
          (fun x y hx' hy' => hb x y (by rw [List.getLast?_cons_cons]; exact hx') hy')

lemma hasBadPair_boundary {xs ys : List Char} {x y : Char}
    (h : hasBadPair (xs ++ ys) = false)
    (hx : xs.getLast? = some x) (hy : ys.head? = some y) :
    ¬(isSpTab x = true ∧ y = '\n') := by
  induction xs with
  | nil => simp at hx
  | cons a t ih =>
    cases t with
    | nil =>
      simp only [List.getLast?_singleton, Option.some_inj] at hx
      subst hx
      rw [List.cons_append, hasBadPair_cons] at h
      have h1 := (Bool.or_eq_false_iff.mp h).1
      rintro ⟨hsp, hnl⟩
      cases ys with
      | nil => simp at hy
      | cons b t' =>
        simp only [List.head?_cons, Option.some_inj] at hy
        subst hy
        simp [pairBad, hsp, hnl] at h1
    | cons b t' =>
      rw [List.getLast?_cons_cons] at hx
      rw [List.cons_append, hasBadPair_cons] at h
      exact ih (Bool.or_eq_false_iff.mp h).2 hx

lemma hasBadPair_append_right {xs ys : List Char}
    (h : hasBadPair (xs ++ ys) = false) : hasBadPair ys = false := by
  induction xs with
  | nil => simpa using h
  | cons a t ih =>
    rw [List.cons_append, hasBadPair_cons] at h
    exact ih (Bool.or_eq_false_iff.mp h).2

lemma hasBadPair_append_left {xs ys : List Char}
    (h : hasBadPair (xs ++ ys) = false) : hasBadPair xs = false := by
  induction xs with
  | nil => rfl
  | cons a t ih =>
    rw [List.cons_append, hasBadPair_cons] at h
    obtain ⟨h1, h2⟩ := Bool.or_eq_false_iff.mp h
    rw [hasBadPair_cons, Bool.or_eq_false_iff]
    refine ⟨?_, ih h2⟩
    cases t with
    | nil => rfl
    | cons b t' => simpa [pairBad] using h1

lemma hasTripleNl_replicate {m : Nat} (h : m ≤ 2) :
    hasTripleNl (List.replicate m '\n') = false := by
  interval_cases m <;> decide

lemma hasTripleNl_cons_not_nl {c : Char} (hc : ¬ c = '\n') {t : List Char}
    (h : hasTripleNl t = false) : hasTripleNl (c :: t) = false := by
  rw [hasTripleNl_cons, Bool.or_eq_false_iff]
  refine ⟨?_, h⟩
  cases t with
  | nil => rfl
  | cons b t' => cases t' <;> simp [tripleHead, hc]

lemma hasTripleNl_replicate_append {m : Nat} (hm : m ≤ 2) {c : Char}
    (hc : ¬ c = '\n') {t : List Char} (h : hasTripleNl (c :: t) = false) :
    hasTripleNl (List.replicate m '\n' ++ c :: t) = false := by
  interval_cases m
  · simpa using h
  · simp only [List.replicate_one, List.singleton_append]
    rw [hasTripleNl_cons, Bool.or_eq_false_iff]
    refine ⟨?_, h⟩
    cases t <;> simp [tripleHead, hc]
  · show hasTripleNl ('\n' :: '\n' :: c :: t) = false
    rw [hasTripleNl_cons, Bool.or_eq_false_iff]
    constructor
    · simp [tripleHead, hc]
    · rw [hasTripleNl_cons, Bool.or_eq_false_iff]
      refine ⟨?_, h⟩
      cases t <;> simp [tripleHead, hc]

lemma hasTripleNl_append_right {xs ys : List Char}
    (h : hasTripleNl (xs ++ ys) = false) : hasTripleNl ys = false := by
  induction xs with
  | nil => simpa using h
  | cons a t ih =>
    rw [List.cons_append, hasTripleNl_cons] at h
    exact ih (Bool.or_eq_false_iff.mp h).2

lemma tripleHead_append (a : Char) (t ys : List Char) :
    tripleHead a t = true → tripleHead a (t ++ ys) = true := by
  cases t with
  | nil => simp [tripleHead]
  | cons b t' => cases t' <;> simp_all [tripleHead]

lemma hasTripleNl_append_left {xs ys : List Char}
    (h : hasTripleNl (xs ++ ys) = false) : hasTripleNl xs = false := by
  induction xs with
  | nil => rfl
  | cons a t ih =>
    rw [List.cons_append, hasTripleNl_cons] at h
    obtain ⟨h1, h2⟩ := Bool.or_eq_false_iff.mp h
    rw [hasTripleNl_cons, Bool.or_eq_false_iff]
    refine ⟨?_, ih h2⟩
    cases hth : tripleHead a t with
    | false => rfl
    | true => rw [tripleHead_append a t ys hth] at h1; exact h1

/-! ### Membership bounds for the sanitizer stages -/

lemma mem_replCRLF {c : Char} : ∀ {l : List Char}, c ∈ replCRLF l → c ∈ l := by
  intro l
  induction l using replCRLF.induct with
  | case1 => intro h; simp [replCRLF] at h
  | case2 x => intro h; simp [replCRLF] at h; simp [h]
  | case3 x y rest hxy ih =>
    intro h
    rw [replCRLF, if_pos hxy] at h
    rcases List.mem_cons.mp h with h | h
    · rw [h, ← hxy.2]
      exact List.mem_cons_of_mem _ (List.mem_cons_self _ _)
    · exact List.mem_cons_of_mem _ (List.mem_cons_of_mem _ (ih h))
  | case4 x y rest hxy ih =>
    intro h
    rw [replCRLF, if_neg hxy] at h
    rcases List.mem_cons.mp h with h | h
    · simp [h]
    · exact List.mem_cons_of_mem _ (ih h)

lemma mem_stripRunGo {c : Char} :
    ∀ (l pend : List Char), c ∈ stripRunGo pend l → c ∈ pend ∨ c ∈ l := by
  intro l
  induction l with
  | nil => intro pend h; simp [stripRunGo] at h; exact Or.inl h
  | cons a rest ih =>
    intro pend h
    by_cases ha : isSpTab a = true
    · simp only [stripRunGo, ha, if_true] at h
      rcases ih (a :: pend) h with h' | h'
      · rcases List.mem_cons.mp h' with h'' | h''
        · exact Or.inr (by simp [h''])
        · exact Or.inl h''
      · exact Or.inr (List.mem_cons_of_mem _ h')
    · by_cases hnl : a = '\n'
      · simp only [stripRunGo, ha, hnl, if_false, if_true] at h
        rcases List.mem_cons.mp h with h' | h'
        · exact Or.inr (by simp [h', hnl])
        · rcases ih [] h' with h'' | h''
          · simp at h''
          · exact Or.inr (List.mem_cons_of_mem _ h'')
      · simp only [stripRunGo, ha, hnl, if_false] at h
        rcases List.mem_append.mp h with h' | h'
        · exact Or.inl (List.mem_reverse.mp h')
        · rcases List.mem_cons.mp h' with h'' | h''
          · exact Or.inr (by simp [h''])
          · rcases ih [] h'' with h3 | h3
            · simp at h3
            · exact Or.inr (List.mem_cons_of_mem _ h3)

lemma mem_stripSpTabNl {c : Char} {l : List Char}
    (h : c ∈ stripSpTabNl l) : c ∈ l := by
  rcases mem_stripRunGo l [] h with h' | h'
  · simp at h'
  · exact h'

lemma mem_collNlGo {c : Char} {cap : Nat} :
    ∀ (l : List Char) (k : Nat), c ∈ collNlGo cap k l → c = '\n' ∨ c ∈ l := by
  intro l
  induction l with
  | nil =>
    intro k h
    simp only [collNlGo] at h
    exact Or.inl (List.eq_of_mem_replicate h)
  | cons a rest ih =>
    intro k h
    by_cases ha : a = '\n'
    · simp only [collNlGo, ha, if_true] at h
      rcases ih (k + 1) h with h' | h'
      · exact Or.inl h'
      · exact Or.inr (List.mem_cons_of_mem _ h')
    · simp only [collNlGo, ha, if_false] at h
      rcases List.mem_append.mp h with h' | h'
      · exact Or.inl (List.eq_of_mem_replicate h')
      · rcases List.mem_cons.mp h' with h'' | h''
        · exact Or.inr (by simp [h''])
        · rcases ih 0 h'' with h3 | h3
          · exact Or.inl h3
          · exact Or.inr (List.mem_cons_of_mem _ h3)

lemma mem_jsTrim {c : Char} {l : List Char} (h : c ∈ jsTrim l) : c ∈ l := by
  have h1 : c ∈ (l.dropWhile isJsWs).reverse.dropWhile isJsWs := by
    simpa [jsTrim, jsTrimEnd] using h
  have h2 := (List.dropWhile_sublist (l := (l.dropWhile isJsWs).reverse)
    (p := isJsWs)).subset h1
  have h3 : c ∈ l.dropWhile isJsWs := List.mem_reverse.mp h2
  exact (List.dropWhile_sublist (l := l) (p := isJsWs)).subset h3

lemma mem_sanitize {c : Char} {l : List Char}
    (h : c ∈ sanitizeExtractedText l) : c = '\n' ∨ c ∈ l := by
  have h1 := mem_jsTrim h
  rcases mem_collNlGo _ _ h1 with h2 | h2
  · exact Or.inl h2
  · have h3 := mem_stripSpTabNl h2
    have h4 : c ∈ replCRLF l := by
      have := List.mem_filter.mp h3
      exact this.1
    exact Or.inr (mem_replCRLF h4)

/-! ### The space-run stripper establishes bad-pair freedom -/

lemma stripRunGo_bp :
    ∀ (l pend : List Char), (∀ a ∈ pend, isSpTab a = true) →
      hasBadPair (stripRunGo pend l) = false := by
  intro l
  induction l with
  | nil =>
    intro pend hp
    simp only [stripRunGo]
    exact hasBadPair_of_all_spTab fun a ha => hp a (List.mem_reverse.mp ha)
  | cons a rest ih =>
    intro pend hp
    by_cases ha : isSpTab a = true
    · simp only [stripRunGo, ha, if_true]
      exact ih (a :: pend) fun x hx => by
        rcases List.mem_cons.mp hx with h | h
        · rw [h]; exact ha
        · exact hp x h
    · by_cases hnl : a = '\n'
      · subst hnl
        show hasBadPair ('\n' :: stripRunGo [] rest) = false
        rw [hasBadPair_cons, Bool.or_eq_false_iff]
        exact ⟨pairBad_eq_false_of_not_spTab (by decide) _, ih [] (by simp)⟩
      · simp only [stripRunGo, ha, hnl, if_false]
        refine hasBadPair_append_false
          (hasBadPair_of_all_spTab fun x hx => hp x (List.mem_reverse.mp hx)) ?_ ?_
        · rw [hasBadPair_cons, Bool.or_eq_false_iff]
          exact ⟨pairBad_eq_false_of_not_spTab (Bool.eq_false_iff.mpr ha) _,
            ih [] (by simp)⟩
        · intro x y _ hy
          simp only [List.head?_cons, Option.some_inj] at hy
          rintro ⟨_, h2⟩
          exact hnl (hy ▸ h2)

/-! ### The newline collapse: bad-pair preservation and triple-freedom -/

lemma collNlGo_head_nl {cap : Nat} {l : List Char}
    (h : (collNlGo cap 0 l).head? = some '\n') : l.head? = some '\n' := by
  cases l with
  | nil => simp [collNlGo] at h
  | cons d r =>
    by_cases hd : d = '\n'
    · simp [hd]
    · simp [collNlGo, hd] at h

lemma collNlGo_bp {cap : Nat} :
    ∀ (l : List Char), hasBadPair l = false →
      ∀ k, hasBadPair (collNlGo cap k l) = false := by
  intro l
  induction l with
  | nil => intro _ k; simp only [collNlGo]; exact hasBadPair_replicate_nl _
  | cons a rest ih =>
    intro h k
    by_cases ha : a = '\n'
    · simp only [collNlGo, ha, if_true]
      exact ih (hasBadPair_tail h) (k + 1)
    · simp only [collNlGo, ha, if_false]
      refine hasBadPair_append_false (hasBadPair_replicate_nl _) ?_ ?_
      · rw [hasBadPair_cons, Bool.or_eq_false_iff]
        refine ⟨?_, ih (hasBadPair_tail h) 0⟩
        by_cases hsp : isSpTab a = true
        · cases hh : (collNlGo cap 0 rest).head? with
          | none => simp [pairBad, hh]
          | some y =>
            by_cases hy : y = '\n'
            · exfalso
              have hr : rest.head? = some '\n' := collNlGo_head_nl (hy ▸ hh)
              rw [hasBadPair_cons] at h
              have h1 := (Bool.or_eq_false_iff.mp h).1
              simp [pairBad, hr, hsp] at h1
            · simp [pairBad, hh, hy]
        · exact pairBad_eq_false_of_not_spTab (Bool.eq_false_iff.mpr hsp) _
      · intro x y hx _
        have hx' : x ∈ List.replicate (min k cap) '\n' :=
          List.mem_of_mem_getLast? hx
        have : x = '\n' := List.eq_of_mem_replicate hx'
        rintro ⟨h1, _⟩
        exact isSpTab_ne_nl h1 this

lemma collNlGo_ht {cap : Nat} (hcap : cap ≤ 2) :
    ∀ (l : List Char) (k : Nat), hasTripleNl (collNlGo cap k l) = false := by
  intro l
  induction l with
  | nil =>
    intro k
    simp only [collNlGo]
    exact hasTripleNl_replicate (le_trans (Nat.min_le_right _ _) hcap)
  | cons a rest ih =>
    intro k
    by_cases ha : a = '\n'
    · simp only [collNlGo, ha, if_true]
      exact ih (k + 1)
    · simp only [collNlGo, ha, if_false]
      exact hasTripleNl_replicate_append (le_trans (Nat.min_le_right _ _) hcap) ha
        (hasTripleNl_cons_not_nl ha (ih 0))

/-! ### Trimming preserves all the flat invariants -/

lemma jsTrim_eq_rdropWhile (l : List Char) :
    jsTrim l = List.rdropWhile isJsWs (l.dropWhile isJsWs) := rfl

lemma jsTrim_split (l : List Char) :
    ∃ xs ys, l = xs ++ jsTrim l ++ ys := by
  obtain ⟨xs, hxs⟩ := List.dropWhile_suffix (l := l) (p := isJsWs)
  obtain ⟨ys, hys⟩ := List.rdropWhile_prefix isJsWs (l.dropWhile isJsWs)
  refine ⟨xs, ys, ?_⟩
  rw [List.append_assoc, jsTrim_eq_rdropWhile, hys, hxs]

lemma jsTrim_pres_bp {l : List Char} (h : hasBadPair l = false) :
    hasBadPair (jsTrim l) = false := by
  obtain ⟨xs, ys, hl⟩ := jsTrim_split l
  rw [hl] at h
  exact hasBadPair_append_right (hasBadPair_append_left h)

lemma jsTrim_pres_ht {l : List Char} (h : hasTripleNl l = false) :
    hasTripleNl (jsTrim l) = false := by
  obtain ⟨xs, ys, hl⟩ := jsTrim_split l
  rw [hl] at h
  exact hasTripleNl_append_right (hasTripleNl_append_left h)

lemma jsTrim_head_not_ws {l : List Char} {c : Char}
    (h : (jsTrim l).head? = some c) : isJsWs c = false := by
  obtain ⟨ys, hys⟩ := List.rdropWhile_prefix isJsWs (l.dropWhile isJsWs)
  have hj : jsTrim l = List.rdropWhile isJsWs (l.dropWhile isJsWs) := by
    simp [jsTrim, jsTrimEnd, List.rdropWhile]
  rw [hj] at h
  have hne : List.rdropWhile isJsWs (l.dropWhile isJsWs) ≠ [] := by
    intro hnil; rw [hnil] at h; simp at h
  have hd : (l.dropWhile isJsWs).head? = some c := by
    rw [← hys]
    cases hr : List.rdropWhile isJsWs (l.dropWhile isJsWs) with
    | nil => exact absurd hr hne
    | cons z zs =>
      rw [hr] at h
      simp only [List.head?_cons, Option.some_inj] at h
      simp [h]
  have hne2 : l.dropWhile isJsWs ≠ [] := by
    intro hnil; rw [hnil] at hd; simp at hd
  have hnw := List.head_dropWhile_not isJsWs l hne2
  have hc : c = (l.dropWhile isJsWs).head hne2 := by
    have hh := List.head?_eq_head (l := l.dropWhile isJsWs) hne2
    rw [hd] at hh
    exact Option.some.inj hh
  rw [hc]
  simpa using hnw

lemma jsTrim_getLast_not_ws {l : List Char} {c : Char}
    (h : (jsTrim l).getLast? = some c) : isJsWs c = false := by
  have hj : jsTrim l = List.rdropWhile isJsWs (l.dropWhile isJsWs) := by
    simp [jsTrim, jsTrimEnd, List.rdropWhile]
  rw [hj] at h
  have hne : List.rdropWhile isJsWs (l.dropWhile isJsWs) ≠ [] := by
    intro hnil; rw [hnil] at h; simp at h
  have hnw := List.rdropWhile_last_not isJsWs (l.dropWhile isJsWs) hne
  have hc : c = (List.rdropWhile isJsWs (l.dropWhile isJsWs)).getLast hne := by
    have hh := List.getLast?_eq_getLast
      (l := List.rdropWhile isJsWs (l.dropWhile isJsWs)) hne
    rw [h] at hh
    exact Option.some.inj hh
  rw [hc]
  simpa using hnw

/-! ### Combined sanitizer-output invariants -/

/-- The normal form every sanitizer output satisfies: no NUL character, no
space/tab directly before a newline, no run of three newlines, and no
whitespace at either end. -/
def SanitizedInv (l : List Char) : Prop :=
  nulChar ∉ l ∧
  hasBadPair l = false ∧
  hasTripleNl l = false ∧
  (∀ c, l.head? = some c → isJsWs c = false) ∧
  (∀ c, l.getLast? = some c → isJsWs c = false)

lemma sanitize_no_nul (l : List Char) :
    nulChar ∉ sanitizeExtractedText l := by
  intro h
  have h1 := mem_jsTrim h
  rcases mem_collNlGo _ _ h1 with h2 | h2
  · exact absurd h2 (by decide)
  · have h3 := mem_stripSpTabNl h2
    have h4 := List.mem_filter.mp h3
    simp at h4

lemma sanitize_inv (l : List Char) :
    SanitizedInv (sanitizeExtractedText l) := by
  refine ⟨sanitize_no_nul l, ?_, ?_, ?_, ?_⟩
  · exact jsTrim_pres_bp (collNlGo_bp _ (stripRunGo_bp _ [] (by simp)) 0)
  · exact jsTrim_pres_ht (collNlGo_ht (by norm_num) _ 0)
  · intro c hc; exact jsTrim_head_not_ws hc
  · intro c hc; exact jsTrim_getLast_not_ws hc

/-! ### Fixpoint lemmas: each stage is the identity on sanitized output -/

lemma replCRLF_id {l : List Char} (h : '\r' ∉ l) : replCRLF l = l := by
  induction l using replCRLF.induct with
  | case1 => rfl
  | case2 x => rfl
  | case3 x y rest hxy ih =>
    exact absurd (hxy.1 ▸ List.mem_cons_self x (y :: rest)) h
  | case4 x y rest hxy ih =>
    rw [replCRLF, if_neg hxy]
    have : '\r' ∉ y :: rest := fun hm => h (List.mem_cons_of_mem _ hm)
    rw [ih this]

lemma stripNulls_id {l : List Char} (h : nulChar ∉ l) : stripNulls l = l := by
  refine List.filter_eq_self.mpr fun a ha => ?_
  simp only [decide_eq_true_eq]
  exact fun heq => h (heq ▸ ha)

lemma stripRunGo_id :
    ∀ (l pend : List Char), (∀ a ∈ pend, isSpTab a = true) →
      hasBadPair (pend.reverse ++ l) = false →
      stripRunGo pend l = pend.reverse ++ l := by
  intro l
  induction l with
  | nil => intro pend _ _; simp [stripRunGo]
  | cons a rest ih =>
    intro pend hp hb
    by_cases ha : isSpTab a = true
    · simp only [stripRunGo, ha, if_true]
      have hp' : ∀ x ∈ a :: pend, isSpTab x = true := fun x hx => by
        rcases List.mem_cons.mp hx with h | h
        · rw [h]; exact ha
        · exact hp x h
      have hb' : hasBadPair ((a :: pend).reverse ++ rest) = false := by
        simpa [List.append_assoc] using hb
      rw [ih (a :: pend) hp' hb']
      simp
    · by_cases hnl : a = '\n'
      · subst hnl
        have hpe : pend = [] := by
          cases hpc : pend with
          | nil => rfl
          | cons p ps =>
            exfalso
            have hlast : pend.reverse.getLast? = some p := by
              rw [hpc]; simp
            have hbd := hasBadPair_boundary hb hlast (y := '\n') (by simp)
            exact hbd ⟨hp p (by simp [hpc]), rfl⟩
        subst hpe
        simp only [List.reverse_nil, List.nil_append] at hb ⊢
        show '\n' :: stripRunGo [] rest = '\n' :: rest
        rw [ih [] (by simp) (by simpa using hasBadPair_tail hb)]
        simp
      · simp only [stripRunGo, ha, hnl, if_false]
        rw [ih [] (by simp)
          (by simpa using hasBadPair_tail (hasBadPair_append_right hb))]
        simp

lemma stripSpTabNl_id {l : List Char} (h : hasBadPair l = false) :
    stripSpTabNl l = l := by
  have := stripRunGo_id l [] (by simp) (by simpa using h)
  simpa [stripSpTabNl] using this

lemma collNlGo_id :
    ∀ (l : List Char) (k : Nat), k ≤ 2 →
      hasTripleNl (List.replicate k '\n' ++ l) = false →
      collNlGo 2 k l = List.replicate k '\n' ++ l := by
  intro l
  induction l with
  | nil =>
    intro k hk _
    simp only [collNlGo, List.append_nil]
    rw [Nat.min_eq_left hk]
  | cons a rest ih =>
    intro k hk h
    by_cases ha : a = '\n'
    · subst ha
      simp only [collNlGo, if_pos rfl]
      have hrep : List.replicate k '\n' ++ '\n' :: rest =
          List.replicate (k + 1) '\n' ++ rest := by
        rw [List.replicate_succ' k '\n', List.append_assoc]
        simp
      have hk1 : k + 1 ≤ 2 := by
        rcases Nat.lt_or_ge k 2 with hlt | hge
        · omega
        · exfalso
          have hk2 : k = 2 := le_antisymm hk hge
          subst hk2
          simp only [show List.replicate 2 '\n' ++ '\n' :: rest =
            '\n' :: '\n' :: '\n' :: rest from rfl] at h
          rw [hasTripleNl_cons] at h
          simp [tripleHead] at h
      rw [ih (k + 1) hk1 (hrep ▸ h), hrep]
      simp
    · simp only [collNlGo, ha, if_false]
      rw [Nat.min_eq_left hk,
        ih 0 (by omega) (by simpa using hasTripleNl_tail (hasTripleNl_append_right h))]
      simp

lemma collapseNl_id {l : List Char} (h : hasTripleNl l = false) :
    collapseNl l = l := by
  simpa [collapseNl] using collNlGo_id l 0 (by omega) (by simpa using h)

lemma jsTrim_id {l : List Char}
    (hh : ∀ c, l.head? = some c → isJsWs c = false)
    (hl : ∀ c, l.getLast? = some c → isJsWs c = false) :
    jsTrim l = l := by
  have h1 : l.dropWhile isJsWs = l := by
    cases hc : l with
    | nil => rfl
    | cons a t =>
      rw [List.dropWhile_cons]
      have := hh a (by rw [hc]; rfl)
      simp [this]
  rw [jsTrim_eq_rdropWhile, h1]
  rw [List.rdropWhile_eq_self_iff]
  intro hne
  have hgl := hl (l.getLast hne) (List.getLast?_eq_getLast l hne)
  simp [hgl]

lemma sanitize_no_cr {l : List Char} (h : '\r' ∉ l) :
    '\r' ∉ sanitizeExtractedText l := by
  intro hm
  rcases mem_sanitize hm with h' | h'
  · exact absurd h' (by decide)
  · exact h h'

lemma sanitize_fixpoint {s : List Char} (hcr : '\r' ∉ s)
    (hinv : SanitizedInv s) : sanitizeExtractedText s = s := by
  obtain ⟨hn, hbp, hht, hh, hl⟩ := hinv
  unfold sanitizeExtractedText
  rw [replCRLF_id hcr, stripNulls_id hn, stripSpTabNl_id hbp, collapseNl_id hht]
  exact jsTrim_id hh hl

/-! ### PDF content tokenizer (Form.tsx lines 13–54) -/

/-- The code points the `latin1` (windows-1252) decoder assigns to bytes
0x80–0x9F, in order: the WHATWG encoding standard's windows-1252 table. -/
def cp1252High : List Nat :=
  [0x20AC, 0x81, 0x201A, 0x192, 0x201E, 0x2026, 0x2020, 0x2021,
   0x2C6, 0x2030, 0x160, 0x2039, 0x152, 0x8D, 0x17D, 0x8F,
   0x90, 0x2018, 0x2019, 0x201C, 0x201D, 0x2022, 0x2013, 0x2014,
   0x2DC, 0x2122, 0x161, 0x203A, 0x153, 0x9D, 0x17E, 0x178]

/-- One byte through `new TextDecoder('latin1')`.  The `latin1` label is an
alias of windows-1252, so bytes 0x80–0x9F go through the remap table and
every other byte becomes the code point of the same value. -/
def cp1252Byte (v : Nat) : Char :=
  if 0x80 ≤ v ∧ v < 0xA0 then Char.ofNat (cp1252High.getD (v - 0x80) v)
  else Char.ofNat v

/-- The single-byte decode of `new TextDecoder('latin1')`: windows-1252,
byte for byte (on ASCII — every byte the tokenizer itself inspects — this
is the identity embedding of byte values as code points). -/
def latin1Decode (b : List Nat) : List Char := b.map cp1252Byte

/-- Global left-to-right non-overlapping replacement of the two-character
pattern `p q` by the single character `out` (the shape of every `replace`
call in `decodePdfToken`). -/
def replacePair (p q out : Char) : List Char → List Char
  | [] => []
  | [a] => [a]
  | a :: b :: rest =>
    if a = p ∧ b = q then out :: replacePair p q out rest
    else a :: replacePair p q out (b :: rest)

/-- `decodePdfToken` (Form.tsx lines 13–21): the seven sequential `replace`
passes decoding PDF literal-string escapes. -/
def decodePdfToken (l : List Char) : List Char :=
  replacePair '\\' '\\' '\\'
    (replacePair '\\' 'f' '\x0c'
      (replacePair '\\' 't' '\t'
        (replacePair '\\' 'r' '\r'
          (replacePair '\\' 'n' '\n'
            (replacePair '\\' ')' ')'
              (replacePair '\\' '(' '(' l))))))

/-- JS line terminators, which `.` never matches. -/
def isLineTerm (c : Char) : Bool :=
  c = '\n' || c = '\r' || c = Char.ofNat 0x2028 || c = Char.ofNat 0x2029

/-- Parse the body of a parenthesized PDF string starting just after the
opening `(`: the regex repetition `(?:\\.|[^\\)])*` can consume an escape
pair — whose escaped character must be matched by `.`, so it may not be a
line terminator — or any single character other than `\` and `)` (a negated
class, which does match line terminators), so the body extends to the first
unescaped `)`.  Returns the raw body and the remainder after the closing
`)`; `none` when the string never closes or a backslash is followed by a
line terminator (or nothing), which stalls the repetition on a character
the closing `)` can never match. -/
def parseParenBody : List Char → Option (List Char × List Char)
  | [] => none
  | c :: rest =>
    if c = ')' then some ([], rest)
    else if c = '\\' then
      match rest with
      | [] => none
      | d :: rest2 =>
        if isLineTerm d then none
        else (parseParenBody rest2).map fun p => (c :: d :: p.1, p.2)
    else (parseParenBody rest).map fun p => (c :: p.1, p.2)

/-- The two-character operator `t0 t1` at the head of a list: returns the
remainder after it. -/
def opAt (t0 t1 : Char) : List Char → Option (List Char)
  | [] => none
  | [_] => none
  | a :: b :: rest => if a = t0 ∧ b = t1 then some rest else none

/-- `\s*` followed by the two-character operator `t0 t1`: returns the
remainder after the operator when it is present. -/
def tjAfter (t0 t1 : Char) (l : List Char) : Option (List Char) :=
  opAt t0 t1 (l.dropWhile isJsWs)

/-- Attempt the tail of a simple-show match just after its opening `(`:
string body, then `\s*`, then the literal `Tj`.  Returns the raw
body and the remainder after `Tj`. -/
def parseSimpleAfter (l : List Char) : Option (List Char × List Char) :=
  match parseParenBody l with
  | none => none
  | some (body, r) =>
    match tjAfter 'T' 'j' r with
    | some after => some (body, after)
    | none => none

/-- Attempt the tail of an array-show match just after its opening `[`:
the lazy `.*?` grows one character at a time (never across a line
terminator, and `]` itself may be absorbed when the shorter match fails),
and each candidate `]` must be followed by `\s*TJ`.  Returns the raw inner
text of the brackets and the remainder after `TJ`. -/
def parseArrayAfter : List Char → Option (List Char × List Char)
  | [] => none
  | c :: rest =>
    if isLineTerm c then none
    else if c = ']' then
      match tjAfter 'T' 'J' rest with
      | some after => some ([], after)
      | none => (parseArrayAfter rest).map fun p => (c :: p.1, p.2)
    else (parseArrayAfter rest).map fun p => (c :: p.1, p.2)

lemma opAt_length {t0 t1 : Char} :
    ∀ {m after : List Char}, opAt t0 t1 m = some after →
      after.length + 2 = m.length := by
  intro m after h
  match m with
  | [] => simp [opAt] at h
  | [a] => simp [opAt] at h
  | a :: b :: rest =>
    by_cases hab : a = t0 ∧ b = t1
    · rw [opAt, if_pos hab] at h
      rw [← Option.some.inj h]
      simp
    · rw [opAt, if_neg hab] at h
      simp at h

lemma tjAfter_length {t0 t1 : Char} {l after : List Char}
    (h : tjAfter t0 t1 l = some after) : after.length ≤ l.length := by
  have h1 := opAt_length h
  have hsub : (l.dropWhile isJsWs).length ≤ l.length :=
    (List.dropWhile_sublist _).length_le
  omega

lemma parseParenBody_nil : parseParenBody [] = none := rfl

lemma parseParenBody_close (rest : List Char) :
    parseParenBody (')' :: rest) = some ([], rest) := by
  rw [parseParenBody.eq_def]
  simp

lemma parseParenBody_esc_nil : parseParenBody ['\\'] = none := rfl

lemma parseParenBody_esc {d : Char} (hd : ¬ isLineTerm d = true)
    (rest2 : List Char) :
    parseParenBody ('\\' :: d :: rest2) =
      (parseParenBody rest2).map fun p => ('\\' :: d :: p.1, p.2) := by
  rw [parseParenBody.eq_def]
  simp [hd]

lemma parseParenBody_esc_term {d : Char} (hd : isLineTerm d = true)
    (rest2 : List Char) :
    parseParenBody ('\\' :: d :: rest2) = none := by
  rw [parseParenBody.eq_def]
  simp [hd]

lemma parseParenBody_other {c : Char} (hc : ¬ c = ')') (hbs : ¬ c = '\\')
    (rest : List Char) :
    parseParenBody (c :: rest) =
      (parseParenBody rest).map fun p => (c :: p.1, p.2) := by
  rw [parseParenBody.eq_def]
  simp [hc, hbs]

theorem parseParenBody_length :
    ∀ (l b r : List Char), parseParenBody l = some (b, r) → r.length < l.length
  | [], b, r, h => by simp [parseParenBody_nil] at h
  | c :: rest, b, r, h => by
    by_cases hc : c = ')'
    · subst hc
      rw [parseParenBody_close] at h
      have hr : r = rest := (congrArg Prod.snd (Option.some.inj h)).symm
      simp [hr]
    · by_cases hbs : c = '\\'
      · subst hbs
        cases rest with
        | nil => rw [parseParenBody_esc_nil] at h; simp at h
        | cons d rest2 =>
          by_cases hd : isLineTerm d = true
          · rw [parseParenBody_esc_term hd] at h; simp at h
          rw [parseParenBody_esc hd] at h
          cases hp : parseParenBody rest2 with
          | none => rw [hp] at h; simp at h
          | some p =>
            rw [hp] at h
            simp only [Option.map_some', Option.some.injEq] at h
            have hlt := parseParenBody_length rest2 p.1 p.2 (by rw [hp])
            have hr : r = p.2 := (congrArg Prod.snd h).symm
            rw [hr]
            simp only [List.length_cons]
            omega
      · rw [parseParenBody_other hc hbs] at h
        cases hp : parseParenBody rest with
        | none => rw [hp] at h; simp at h
        | some p =>
          rw [hp] at h
          simp only [Option.map_some', Option.some.injEq] at h
          have hlt := parseParenBody_length rest p.1 p.2 (by rw [hp])
          have hr : r = p.2 := (congrArg Prod.snd h).symm
          rw [hr]
          simp only [List.length_cons]
          omega

theorem parseArrayAfter_length :
    ∀ (l inner r : List Char), parseArrayAfter l = some (inner, r) →
      r.length < l.length := by
  intro l
  induction l with
  | nil => intro inner r h; simp [parseArrayAfter] at h
  | cons c rest ih =>
    intro inner r h
    rw [parseArrayAfter.eq_def] at h
    by_cases hlt : isLineTerm c = true
    · simp [hlt] at h
    · simp only [hlt, Bool.false_eq_true, if_false] at h
      by_cases hcb : c = ']'
      · simp only [hcb, if_pos rfl, if_true, eq_self_iff_true] at h
        cases htj : tjAfter 'T' 'J' rest with
        | some after =>
          rw [htj] at h
          simp only [Option.some.injEq, Prod.mk.injEq] at h
          have hr : r = after := h.2.symm
          have := tjAfter_length htj
          rw [hr]; simp only [List.length_cons]; omega
        | none =>
          rw [htj] at h
          cases hp : parseArrayAfter rest with
          | none => rw [hp] at h; simp at h
          | some p =>
            rw [hp] at h
            simp only [Option.map_some', Option.some.injEq, Prod.mk.injEq] at h
            have := ih p.1 p.2 (by rw [hp])
            have hr : r = p.2 := h.2.symm
            rw [hr]; simp only [List.length_cons]; omega
      · simp only [hcb, if_false] at h
        cases hp : parseArrayAfter rest with
        | none => rw [hp] at h; simp at h
        | some p =>
          rw [hp] at h
          simp only [Option.map_some', Option.some.injEq] at h
          have := ih p.1 p.2 (by rw [hp])
          have hr : r = p.2 := (congrArg Prod.snd h).symm
          rw [hr]; simp only [List.length_cons]; omega

lemma parseSimpleAfter_length {l body after : List Char}
    (h : parseSimpleAfter l = some (body, after)) : after.length < l.length := by
  unfold parseSimpleAfter at h
  split at h
  · simp at h
  · rename_i body1 r1 hp
    split at h
    · rename_i a2 htj
      simp only [Option.some.injEq, Prod.mk.injEq] at h
      have h1 := tjAfter_length htj
      have h2 := parseParenBody_length l body1 r1 hp
      have heq : after = a2 := h.2.symm
      subst heq
      omega
    · simp at h

/-- The error taxonomy of the engine (section 7 of the spec), matching the
distinct `throw new Error(...)` messages of Form.tsx plus the `RangeError` a
`DataView` read past the end of the buffer raises. -/
inductive ExtErr where
  | corruptArchive
  | missingEntry
  | decompUnsupported
  | corruptDocument
  | emptyExtraction
  | rangeError
deriving DecidableEq

/-- One pass of `simpleRegex.exec`: scan for `(`, parse a string body plus
`\s*Tj`; on success emit the match position and raw body and continue after
the match, on failure restart one character further on.  `fuel` only pads
the recursion and never runs out when it starts at `length + 1`. -/
def simpleScan : Nat → Nat → List Char → List (Nat × List Char)
  | 0, _, _ => []
  | _ + 1, _, [] => []
  | fuel + 1, p, c :: rest =>
    if c = '(' then
      match parseSimpleAfter rest with
      | some (body, after) =>
        (p, body) :: simpleScan fuel (p + (rest.length + 1 - after.length)) after
      | none => simpleScan fuel (p + 1) rest
    else simpleScan fuel (p + 1) rest

/-- One pass of `arrayRegex.exec`, analogously for `[ ... ]\s*TJ`. -/
def arrayScan : Nat → Nat → List Char → List (Nat × List Char)
  | 0, _, _ => []
  | _ + 1, _, [] => []
  | fuel + 1, p, c :: rest =>
    if c = '[' then
      match parseArrayAfter rest with
      | some (inner, after) =>
        (p, inner) :: arrayScan fuel (p + (rest.length + 1 - after.length)) after
      | none => arrayScan fuel (p + 1) rest
    else arrayScan fuel (p + 1) rest

/-- `tokenRegex` applied to the inner text of an array show: every
parenthesized string, in order. -/
def parenTokens : Nat → List Char → List (List Char)
  | 0, _ => []
  | _ + 1, [] => []
  | fuel + 1, c :: rest =>
    if c = '(' then
      match parseParenBody rest with
      | some (b, r) => b :: parenTokens fuel r
      | none => parenTokens fuel rest
    else parenTokens fuel rest

/-- All simple-show matches of the raw text, with match positions. -/
def pdfSimpleMatches (raw : List Char) : List (Nat × List Char) :=
  simpleScan (raw.length + 1) 0 raw

/-- All array-show matches of the raw text, with match positions. -/
def pdfArrayMatches (raw : List Char) : List (Nat × List Char) :=
  arrayScan (raw.length + 1) 0 raw

/-- The `segments` array of `extractTextFromPdf`: every decoded simple-show
line (first `while` loop), then every decoded array-show line (second
`while` loop, which drops arrays without string segments). -/
def pdfSegments (raw : List Char) : List (List Char) :=
  (pdfSimpleMatches raw).map (fun m => decodePdfToken m.2) ++
    (pdfArrayMatches raw).filterMap (fun m =>
      let ts := parenTokens (m.2.length + 1) m.2
      if ts = [] then none
      else some (List.flatten (ts.map decodePdfToken)))

/-- `extractTextFromPdf` (Form.tsx lines 23–54). -/
def extractTextFromPdf (buffer : List Nat) : List Char :=
  let raw := latin1Decode buffer
  let segs := pdfSegments raw
  if segs = [] then replCRLF raw else List.intercalate ['\n'] segs

/-- The PDF branch of `handleFileUpload` (Form.tsx lines 279–290): an
extraction whose `trim()` is empty throws the distinct empty-extraction
error, otherwise the sanitized text is delivered. -/
def pdfUpload (b : List Nat) : Except ExtErr (List Char) :=
  let extracted := extractTextFromPdf b
  if jsTrim extracted = [] then .error .emptyExtraction
  else .ok (sanitizeExtractedText extracted)

/-- ASCII bytes of a string, used to build concrete test buffers. -/
def strBytes (s : String) : List Nat := s.toList.map Char.toNat

instance {ε α : Type} [DecidableEq ε] [DecidableEq α] :
    DecidableEq (Except ε α) := fun x y =>
  match x, y with
  | .ok a, .ok b =>
    if h : a = b then isTrue (by rw [h])
    else isFalse (by intro he; cases he; exact h rfl)
  | .error e, .error f =>
    if h : e = f then isTrue (by rw [h])
    else isFalse (by intro he; cases he; exact h rfl)
  | .ok _, .error _ => isFalse (by intro he; cases he)
  | .error _, .ok _ => isFalse (by intro he; cases he)

example : extractTextFromPdf (strBytes "(Hello) Tj") = "Hello".toList := by decide
example : extractTextFromPdf (strBytes "[(Hel) -20 (lo)] TJ") = "Hello".toList := by
  decide
example : extractTextFromPdf (strBytes "[(A)] TJ (B) Tj") = "B\nA".toList := by
  decide
example : extractTextFromPdf (strBytes "abc") = "abc".toList := by decide
example : pdfSegments (latin1Decode (strBytes "(a\\\nb) Tj")) = [] := by decide
example :
    latin1Decode [0x93, 0x94] = [Char.ofNat 0x201C, Char.ofNat 0x201D] := by
  decide
example : pdfUpload (strBytes "   ") = .error .emptyExtraction := by decide

/-! ### Scan positions are strictly increasing (byte order within a pass) -/

lemma simpleScan_lb :
    ∀ (fuel : Nat) (p : Nat) (l : List Char) (q : Nat),
      q ∈ (simpleScan fuel p l).map Prod.fst → p ≤ q := by
  intro fuel
  induction fuel with
  | zero => intro p l q h; simp [simpleScan] at h
  | succ f ih =>
    intro p l q h
    cases l with
    | nil => simp [simpleScan] at h
    | cons c rest =>
      rw [simpleScan] at h
      by_cases hc : c = '('
      · rw [if_pos hc] at h
        cases hp : parseSimpleAfter rest with
        | none =>
          rw [hp] at h
          have := ih (p + 1) rest q h
          omega
        | some m =>
          obtain ⟨body, after⟩ := m
          rw [hp] at h
          simp only [List.map_cons, List.mem_cons] at h
          rcases h with h | h
          · omega
          · have := ih _ after q h
            omega
      · rw [if_neg hc] at h
        have := ih (p + 1) rest q h
        omega

lemma arrayScan_lb :
    ∀ (fuel : Nat) (p : Nat) (l : List Char) (q : Nat),
      q ∈ (arrayScan fuel p l).map Prod.fst → p ≤ q := by
  intro fuel
  induction fuel with
  | zero => intro p l q h; simp [arrayScan] at h
  | succ f ih =>
    intro p l q h
    cases l with
    | nil => simp [arrayScan] at h
    | cons c rest =>
      rw [arrayScan] at h
      by_cases hc : c = '['
      · rw [if_pos hc] at h
        cases hp : parseArrayAfter rest with
        | none =>
          rw [hp] at h
          have := ih (p + 1) rest q h
          omega
        | some m =>
          obtain ⟨inner, after⟩ := m
          rw [hp] at h
          simp only [List.map_cons, List.mem_cons] at h
          rcases h with h | h
          · omega
          · have := ih _ after q h
            omega
      · rw [if_neg hc] at h
        have := ih (p + 1) rest q h
        omega

lemma simpleScan_chain :
    ∀ (fuel : Nat) (p : Nat) (l : List Char),
      List.Chain' (· < ·) ((simpleScan fuel p l).map Prod.fst) := by
  intro fuel
  induction fuel with
  | zero => intro p l; simp [simpleScan]
  | succ f ih =>
    intro p l
    cases l with
    | nil => simp [simpleScan]
    | cons c rest =>
      rw [simpleScan]
      by_cases hc : c = '('
      · rw [if_pos hc]
        cases hp : parseSimpleAfter rest with
        | none => exact ih (p + 1) rest
        | some m =>
          obtain ⟨body, after⟩ := m
          simp only [List.map_cons]
          rw [List.chain'_cons']
          constructor
          · intro q hq
            have hmem : q ∈ (simpleScan f
                (p + (rest.length + 1 - after.length)) after).map Prod.fst :=
              List.mem_of_mem_head? hq
            have h1 := simpleScan_lb f _ after q hmem
            have h2 := parseSimpleAfter_length hp
            omega
          · exact ih _ after
      · rw [if_neg hc]
        exact ih (p + 1) rest

lemma arrayScan_chain :
    ∀ (fuel : Nat) (p : Nat) (l : List Char),
      List.Chain' (· < ·) ((arrayScan fuel p l).map Prod.fst) := by
  intro fuel
  induction fuel with
  | zero => intro p l; simp [arrayScan]
  | succ f ih =>
    intro p l
    cases l with
    | nil => simp [arrayScan]
    | cons c rest =>
      rw [arrayScan]
      by_cases hc : c = '['
      · rw [if_pos hc]
        cases hp : parseArrayAfter rest with
        | none => exact ih (p + 1) rest
        | some m =>
          obtain ⟨inner, after⟩ := m
          simp only [List.map_cons]
          rw [List.chain'_cons']
          constructor
          · intro q hq
            have hmem : q ∈ (arrayScan f
                (p + (rest.length + 1 - after.length)) after).map Prod.fst :=
              List.mem_of_mem_head? hq
            have h1 := arrayScan_lb f _ after q hmem
            have h2 := parseArrayAfter_length rest inner after hp
            omega
          · exact ih _ after
      · rw [if_neg hc]
        exact ih (p + 1) rest

lemma replCRLF_eq_nil_iff {l : List Char} : replCRLF l = [] ↔ l = [] := by
  induction l using replCRLF.induct with
  | case1 => simp [replCRLF]
  | case2 x => simp [replCRLF]
  | case3 x y rest hxy ih => rw [replCRLF, if_pos hxy]; simp
  | case4 x y rest hxy ih => rw [replCRLF, if_neg hxy]; simp

/-! ### ZIP directory walker and DOCX assembler (Form.tsx lines 56–239) -/

/-- The Unicode replacement character emitted by `TextDecoder` on invalid
UTF-8. -/
def repChar : Char := Char.ofNat 0xFFFD

/-- `TextDecoder()` (UTF-8) decode.  ASCII bytes decode exactly; multi-byte
sequences decode by the standard value computation, with overlong and
surrogate encodings rejected as replacement characters.  (The byte-exact
error-recovery width at truncated trailing sequences is simplified; every
comparison the engine performs is against pure-ASCII strings, for which this
decoder is exact; the recovery width after an invalid multi-byte sequence is
simplified to consuming the whole attempted sequence.) -/
def utf8Decode : List Nat → List Char
  | [] => []
  | b :: rest =>
    if b < 0x80 then Char.ofNat b :: utf8Decode rest
    else if b < 0xC2 then repChar :: utf8Decode rest
    else if b < 0xE0 then
      match rest with
      | c :: rest2 =>
        if 0x80 ≤ c ∧ c < 0xC0 then
          Char.ofNat ((b - 0xC0) * 64 + (c - 0x80)) :: utf8Decode rest2
        else repChar :: utf8Decode rest2
      | [] => [repChar]
    else if b < 0xF0 then
      match rest with
      | c :: d :: rest2 =>
        if (0x80 ≤ c ∧ c < 0xC0) ∧ (0x80 ≤ d ∧ d < 0xC0) ∧
            ¬(b = 0xE0 ∧ c < 0xA0) ∧ ¬(b = 0xED ∧ 0xA0 ≤ c) then
          Char.ofNat ((b - 0xE0) * 4096 + (c - 0x80) * 64 + (d - 0x80)) ::
            utf8Decode rest2
        else repChar :: utf8Decode rest2
      | _ => [repChar]
    else if b < 0xF5 then
      match rest with
      | c :: d :: e :: rest2 =>
        if (0x80 ≤ c ∧ c < 0xC0) ∧ (0x80 ≤ d ∧ d < 0xC0) ∧
            (0x80 ≤ e ∧ e < 0xC0) ∧
            ¬(b = 0xF0 ∧ c < 0x90) ∧ ¬(b = 0xF4 ∧ 0x90 ≤ c) then
          Char.ofNat ((b - 0xF0) * 262144 + (c - 0x80) * 4096 +
            (d - 0x80) * 64 + (e - 0x80)) :: utf8Decode rest2
        else repChar :: utf8Decode rest2
      | _ => [repChar]
    else repChar :: utf8Decode rest

/-- `DataView.getUint16(i, true)`: little-endian, `RangeError` past the
buffer end. -/
def readU16 (b : List Nat) (i : Nat) : Except ExtErr Nat :=
  match b[i]?, b[i + 1]? with
  | some x, some y => .ok (x + 256 * y)
  | _, _ => .error .rangeError

/-- `DataView.getUint32(i, true)`: little-endian, `RangeError` past the
buffer end. -/
def readU32 (b : List Nat) (i : Nat) : Except ExtErr Nat :=
  match b[i]?, b[i + 1]?, b[i + 2]?, b[i + 3]? with
  | some x, some y, some z, some w =>
    .ok (x + 256 * y + 65536 * z + 16777216 * w)
  | _, _, _, _ => .error .rangeError

/-- Total little-endian 32-bit read (defaulting missing bytes to 0), used
for the end-of-central-directory scan whose probes are always in bounds. -/
def getU32D (b : List Nat) (i : Nat) : Nat :=
  b.getD i 0 + 256 * b.getD (i + 1) 0 + 65536 * b.getD (i + 2) 0 +
    16777216 * b.getD (i + 3) 0

/-- The end-of-central-directory signature `PK\x05\x06`. -/
def eocdSig : Nat := 0x06054b50

/-- The backward scan of `findEndOfCentralDirectory`: probe `i`, `i-1`, …,
`0` for the signature. -/
def scanEOCD (b : List Nat) : Nat → Option Nat
  | 0 => if getU32D b 0 = eocdSig then some 0 else none
  | i + 1 => if getU32D b (i + 1) = eocdSig then some (i + 1) else scanEOCD b i

/-- `findEndOfCentralDirectory` (Form.tsx lines 107–114): scan backward from
`length - 22`; a buffer shorter than 22 bytes never enters the loop. -/
def findEndOfCentralDirectory (b : List Nat) : Option Nat :=
  if b.length < 22 then none else scanEOCD b (b.length - 22)

/-- The fields the walker keeps for the matched central-directory entry. -/
structure CDTarget where
  localHeaderOffset : Nat
  compressedSize : Nat
  compression : Nat
deriving DecidableEq

/-- The entry path the DOCX assembler asks the walker for. -/
def docTargetName : List Char := "word/document.xml".toList

/-- The central-directory walk of `extractWordDocumentXml` (Form.tsx lines
131–155): at most `n` records; each must carry the central-directory
signature; the first entry named `word/document.xml` wins; running out of
entries is a missing-entry failure. -/
def walkCD (b : List Nat) : Nat → Nat → Except ExtErr CDTarget
  | 0, _ => .error .missingEntry
  | n + 1, off => do
    let sig ← readU32 b off
    if sig = 0x02014b50 then
      let comp ← readU16 b (off + 10)
      let csize ← readU32 b (off + 20)
      let fnLen ← readU16 b (off + 28)
      let exLen ← readU16 b (off + 30)
      let cmLen ← readU16 b (off + 32)
      let nameBytes := (b.drop (off + 46)).take fnLen
      if utf8Decode nameBytes = docTargetName then
        let lho ← readU32 b (off + 42)
        pure ⟨lho, csize, comp⟩
      else walkCD b n (off + 46 + fnLen + exLen + cmLen)
    else .error .corruptArchive

/-- `decompressDeflateRaw` (Form.tsx lines 84–101): the browser
`DecompressionStream('deflate-raw')` primitive is a parameter; when the host
provides none the function fails with the unsupported-decompression error. -/
def decompressDeflateRaw (prim : Option (List Nat → List Nat))
    (data : List Nat) : Except ExtErr (List Nat) :=
  match prim with
  | none => .error .decompUnsupported
  | some f => .ok (f data)

/-- The compression dispatch of `extractWordDocumentXml` (lines 173–182):
method 0 passes the payload through, any method other than 8 is
unsupported, method 8 defers to the deflate-raw primitive. -/
def inflateEntry (prim : Option (List Nat → List Nat)) (compression : Nat)
    (data : List Nat) : Except ExtErr (List Nat) :=
  if compression = 0 then .ok data
  else if compression ≠ 8 then .error .decompUnsupported
  else decompressDeflateRaw prim data

/-- `bytes.subarray(dataStart, dataStart + compressedSize)`: the declared
compressed range, clamped to the buffer like `subarray`. -/
def zipPayload (b : List Nat) (dataStart size : Nat) : List Nat :=
  (b.drop dataStart).take size

/-- `extractWordDocumentXml` (Form.tsx lines 103–183). -/
def extractWordDocumentXml (prim : Option (List Nat → List Nat))
    (b : List Nat) : Except ExtErr (List Char) := do
  match findEndOfCentralDirectory b with
  | none => .error .corruptArchive
  | some eocd =>
    let cdOff ← readU32 b (eocd + 16)
    let total ← readU16 b (eocd + 10)
    let t ← walkCD b total cdOff
    let sig ← readU32 b t.localHeaderOffset
    if sig = 0x04034b50 then
      let nl ← readU16 b (t.localHeaderOffset + 26)
      let el ← readU16 b (t.localHeaderOffset + 28)
      let dataStart := t.localHeaderOffset + 30 + nl + el
      let out ← inflateEntry prim t.compression
        (zipPayload b dataStart t.compressedSize)
      pure (utf8Decode out)
    else .error .corruptArchive

/-- A DOM node as the DOCX assembler sees it: a text node or an element
with a tag and children. -/
inductive XNode where
  | text (s : List Char)
  | elem (tag : List Char) (children : List XNode)

mutual
/-- `Element.textContent` of one node: all descendant text. -/
def textContentNode : XNode → List Char
  | .text s => s
  | .elem _ cs => textContentL cs
/-- `textContent` folded over a child list, in document order. -/
def textContentL : List XNode → List Char
  | [] => []
  | x :: rest => textContentNode x ++ textContentL rest
end

mutual
/-- `processNode` of `collectParagraphText`: text-node values verbatim,
`w:tab` a tab, `w:br` a newline, `w:t` its text content, anything else
recursed into. -/
def partsNode : XNode → List Char
  | .text s => s
  | .elem tag cs =>
    if tag = "w:tab".toList then ['\t']
    else if tag = "w:br".toList then ['\n']
    else if tag = "w:t".toList then textContentL cs
    else partsL cs
/-- `processNode` folded over a child list. -/
def partsL : List XNode → List Char
  | [] => []
  | x :: rest => partsNode x ++ partsL rest
end

mutual
/-- `getElementsByTagName` on one node: the node itself when its tag
matches, then its matching descendants, in document (preorder) order. -/
def collectTagNode (tag : List Char) : XNode → List XNode
  | .text _ => []
  | .elem t cs => (if t = tag then [XNode.elem t cs] else []) ++ collectTagL tag cs
/-- `getElementsByTagName` over a node list. -/
def collectTagL (tag : List Char) : List XNode → List XNode
  | [] => []
  | x :: rest => collectTagNode tag x ++ collectTagL tag rest
end

/-- `collectParagraphText` (Form.tsx lines 185–222): the parts joined,
newline runs collapsed to one (`/\n{2,}/g → '\n'`), trailing whitespace
trimmed. -/
def collectParagraphText (p : XNode) : List Char :=
  match p with
  | .text _ => []
  | .elem _ cs => jsTrimEnd (collNlGo 1 0 (partsL cs))

/-- `extractTextFromDocx` (Form.tsx lines 224–239); the `DOMParser` is a
parameter returning `none` exactly when the parsed document carries a
`parsererror` element. -/
def extractTextFromDocx (parseFn : List Char → Option XNode)
    (prim : Option (List Nat → List Nat)) (b : List Nat) :
    Except ExtErr (List Char) := do
  let xml ← extractWordDocumentXml prim b
  match parseFn xml with
  | none => .error .corruptDocument
  | some doc =>
    pure (List.intercalate ['\n']
      (((collectTagL ("w:p".toList) [doc]).map collectParagraphText).filter
        (fun ln => !(jsTrim ln).isEmpty)))

/-- The DOCX branch of `handleFileUpload` (Form.tsx lines 292–303). -/
def docxUpload (parseFn : List Char → Option XNode)
    (prim : Option (List Nat → List Nat)) (b : List Nat) :
    Except ExtErr (List Char) := do
  let extracted ← extractTextFromDocx parseFn prim b
  if jsTrim extracted = [] then .error .emptyExtraction
  else pure (sanitizeExtractedText extracted)

/-! ### A concrete minimal DOCX archive (stored entry) -/

/-- The main-document XML of the round-trip test: one paragraph whose runs
spell `Hello`, an explicit tab, and `World`.  The `w:` prefix is bound by
an `xmlns:w` declaration so a namespace-aware `DOMParser` accepts the
document (an unbound prefix would be reported as a parser error). -/
def docXmlStr : String :=
  "<w:document xmlns:w=\"http://schemas.openxmlformats.org/wordprocessingml/2006/main\"><w:body><w:p><w:r><w:t>Hello</w:t></w:r><w:r><w:tab/></w:r><w:r><w:t>World</w:t></w:r></w:p></w:body></w:document>"

/-- The XML payload as characters. -/
def docXml : List Char := docXmlStr.toList

/-- The XML payload as stored bytes (pure ASCII). -/
def docXmlBytes : List Nat := strBytes docXmlStr

/-- The element/text structure of the DOM tree `DOMParser` produces for
`docXmlStr`.  `tagName` of a namespaced element is its qualified name
(`w:p`), which is what the assembler compares against.  Attributes — here
only the root's namespace declaration — are not represented: they are not
child nodes, and the assembler never reads attributes. -/
def docTree : XNode :=
  .elem "w:document".toList [
    .elem "w:body".toList [
      .elem "w:p".toList [
        .elem "w:r".toList [.elem "w:t".toList [.text "Hello".toList]],
        .elem "w:r".toList [.elem "w:tab".toList []],
        .elem "w:r".toList [.elem "w:t".toList [.text "World".toList]]]]]

/-- Little-endian 16-bit encoding. -/
def le16 (n : Nat) : List Nat := [n % 256, n / 256 % 256]

/-- Little-endian 32-bit encoding. -/
def le32 (n : Nat) : List Nat :=
  [n % 256, n / 256 % 256, n / 65536 % 256, n / 16777216 % 256]

/-- The stored entry's file name bytes. -/
def zipNameBytes : List Nat := strBytes "word/document.xml"

/-- Local file header (30 bytes + name): method 0, sizes equal, no extra. -/
def zipLocalHeader : List Nat :=
  [0x50, 0x4b, 0x03, 0x04] ++ le16 20 ++ le16 0 ++ le16 0 ++ le16 0 ++
    le16 0 ++ le32 0 ++ le32 docXmlBytes.length ++ le32 docXmlBytes.length ++
    le16 zipNameBytes.length ++ le16 0 ++ zipNameBytes

/-- Central-directory record (46 bytes + name) pointing at offset 0. -/
def zipCDR : List Nat :=
  [0x50, 0x4b, 0x01, 0x02] ++ le16 20 ++ le16 20 ++ le16 0 ++ le16 0 ++
    le16 0 ++ le16 0 ++ le32 0 ++ le32 docXmlBytes.length ++
    le32 docXmlBytes.length ++ le16 zipNameBytes.length ++ le16 0 ++
    le16 0 ++ le16 0 ++ le16 0 ++ le32 0 ++ le32 0 ++ zipNameBytes

/-- End-of-central-directory record: one entry, central directory at
`30 + 17 + payload`. -/
def zipEOCD : List Nat :=
  [0x50, 0x4b, 0x05, 0x06] ++ le16 0 ++ le16 0 ++ le16 1 ++ le16 1 ++
    le32 (46 + zipNameBytes.length) ++
    le32 (30 + zipNameBytes.length + docXmlBytes.length) ++ le16 0

/-- The complete minimal ZIP buffer. -/
def zipSample : List Nat :=
  zipLocalHeader ++ docXmlBytes ++ zipCDR ++ zipEOCD

/-- The `DOMParser` stand-in of the round-trip witness: parses exactly the
sample XML to its tree. -/
def sampleParse (l : List Char) : Option XNode :=
  if l = docXml then some docTree else none

set_option maxRecDepth 10000 in
example : extractWordDocumentXml none zipSample = .ok docXml := by decide

set_option maxRecDepth 10000 in
example :
    extractTextFromDocx sampleParse none zipSample = .ok "Hello\tWorld".toList := by
  decide

set_option maxRecDepth 10000 in
example :
    docxUpload sampleParse none zipSample = .ok "Hello\tWorld".toList := by
  decide

/-! ### Declarative description of the central-directory walk -/

/-- Total little-endian 16-bit read, the in-bounds value of `readU16`. -/
def u16D (b : List Nat) (i : Nat) : Nat := b.getD i 0 + 256 * b.getD (i + 1) 0

/-- The next central-directory offset:
`current + 46 + fileNameLength + extraLength + commentLength`. -/
def cdStep (b : List Nat) (off : Nat) : Nat :=
  off + 46 + u16D b (off + 28) + u16D b (off + 30) + u16D b (off + 32)

/-- Offset of the `i`-th central-directory record when walking from `off`. -/
def cdOffsets (b : List Nat) (off : Nat) : Nat → Nat
  | 0 => off
  | i + 1 => cdStep b (cdOffsets b off i)

/-- The decoded file name of the central-directory record at offset `o`. -/
def entryNameAt (b : List Nat) (o : Nat) : List Char :=
  utf8Decode ((b.drop (o + 46)).take (u16D b (o + 28)))

lemma getElem?_eq_some_getD {b : List Nat} {i : Nat} (h : i < b.length) :
    b[i]? = some (b.getD i 0) := by
  rw [List.getElem?_eq_getElem h]
  simp [List.getD, List.getElem?_eq_getElem h]

lemma readU16_ok {b : List Nat} {i : Nat} (h : i + 2 ≤ b.length) :
    readU16 b i = .ok (u16D b i) := by
  unfold readU16 u16D
  rw [getElem?_eq_some_getD (by omega), getElem?_eq_some_getD (by omega)]

lemma readU32_ok {b : List Nat} {i : Nat} (h : i + 4 ≤ b.length) :
    readU32 b i = .ok (getU32D b i) := by
  unfold readU32 getU32D
  rw [getElem?_eq_some_getD (by omega), getElem?_eq_some_getD (by omega),
    getElem?_eq_some_getD (by omega), getElem?_eq_some_getD (by omega)]

/-- One non-matching walk step unfolds to the walk from the next offset. -/
lemma walkCD_step {b : List Nat} {n off : Nat} (hb : off + 46 ≤ b.length)
    (hsig : getU32D b off = 0x02014b50)
    (hname : entryNameAt b off ≠ docTargetName) :
    walkCD b (n + 1) off = walkCD b n (cdStep b off) := by
  have hname' :
      ¬ utf8Decode ((b.drop (off + 46)).take (u16D b (off + 28))) =
        docTargetName := hname
  rw [walkCD]
  rw [readU32_ok (show off + 4 ≤ b.length by omega)]
  simp only [bind, Except.bind, hsig, if_pos rfl,
    readU16_ok (show off + 10 + 2 ≤ b.length by omega),
    readU32_ok (show off + 20 + 4 ≤ b.length by omega),
    readU16_ok (show off + 28 + 2 ≤ b.length by omega),
    readU16_ok (show off + 30 + 2 ≤ b.length by omega),
    readU16_ok (show off + 32 + 2 ≤ b.length by omega)]
  rw [if_neg hname']
  rfl

/-- A matching record ends the walk with its header fields. -/
lemma walkCD_found {b : List Nat} {n off : Nat} (hb : off + 46 ≤ b.length)
    (hsig : getU32D b off = 0x02014b50)
    (hname : entryNameAt b off = docTargetName) :
    walkCD b (n + 1) off =
      .ok ⟨getU32D b (off + 42), getU32D b (off + 20), u16D b (off + 10)⟩ := by
  have hname' :
      utf8Decode ((b.drop (off + 46)).take (u16D b (off + 28))) =
        docTargetName := hname
  rw [walkCD]
  rw [readU32_ok (show off + 4 ≤ b.length by omega)]
  simp only [bind, Except.bind, hsig, if_pos rfl,
    readU16_ok (show off + 10 + 2 ≤ b.length by omega),
    readU32_ok (show off + 20 + 4 ≤ b.length by omega),
    readU16_ok (show off + 28 + 2 ≤ b.length by omega),
    readU16_ok (show off + 30 + 2 ≤ b.length by omega),
    readU16_ok (show off + 32 + 2 ≤ b.length by omega)]
  rw [if_pos hname']
  rw [readU32_ok (show off + 42 + 4 ≤ b.length by omega)]
  rfl

/-- A record that does not start with the central-directory signature stops
the walk with a corrupt-archive failure. -/
lemma walkCD_badsig {b : List Nat} {n off : Nat} (hb : off + 4 ≤ b.length)
    (hsig : getU32D b off ≠ 0x02014b50) :
    walkCD b (n + 1) off = .error .corruptArchive := by
  rw [walkCD, readU32_ok hb]
  simp only [bind, Except.bind]
  rw [if_neg hsig]

/-- Shifting the walk start by one step reindexes the offsets. -/
lemma cdOffsets_shift {b : List Nat} {off : Nat} :
    ∀ i, cdOffsets b off (i + 1) = cdOffsets b (cdStep b off) i := by
  intro i
  induction i with
  | zero => rfl
  | succ j ihj => rw [cdOffsets, ihj, cdOffsets]

/-- Exhausting all records without a match yields the missing-entry
failure. -/
lemma walkCD_missing {b : List Nat} :
    ∀ (total off : Nat),
      (∀ i, i < total → cdOffsets b off i + 46 ≤ b.length ∧
        getU32D b (cdOffsets b off i) = 0x02014b50 ∧
        entryNameAt b (cdOffsets b off i) ≠ docTargetName) →
      walkCD b total off = .error .missingEntry := by
  intro total
  induction total with
  | zero => intro off _; rfl
  | succ n ih =>
    intro off h
    have h0 := h 0 (by omega)
    simp only [cdOffsets] at h0
    rw [walkCD_step h0.1 h0.2.1 h0.2.2]
    refine ih (cdStep b off) fun i hi => ?_
    rw [← cdOffsets_shift]
    exact h (i + 1) (by omega)

/-- The first matching record (all earlier records well-signed and
non-matching) determines the walk's result. -/
lemma walkCD_first_match {b : List Nat} :
    ∀ (k total off : Nat), k < total →
      (∀ i, i < k → cdOffsets b off i + 46 ≤ b.length ∧
        getU32D b (cdOffsets b off i) = 0x02014b50 ∧
        entryNameAt b (cdOffsets b off i) ≠ docTargetName) →
      cdOffsets b off k + 46 ≤ b.length →
      getU32D b (cdOffsets b off k) = 0x02014b50 →
      entryNameAt b (cdOffsets b off k) = docTargetName →
      walkCD b total off =
        .ok ⟨getU32D b (cdOffsets b off k + 42),
          getU32D b (cdOffsets b off k + 20),
          u16D b (cdOffsets b off k + 10)⟩ := by
  intro k
  induction k with
  | zero =>
    intro total off hk _ hb hsig hname
    obtain ⟨m, rfl⟩ : ∃ m, total = m + 1 :=
      ⟨total - 1, by omega⟩
    simp only [cdOffsets] at hb hsig hname ⊢
    exact walkCD_found hb hsig hname
  | succ j ihj =>
    intro total off hk hprev hb hsig hname
    obtain ⟨m, rfl⟩ : ∃ m, total = m + 1 := ⟨total - 1, by omega⟩
    have h0 := hprev 0 (by omega)
    simp only [cdOffsets] at h0
    rw [walkCD_step h0.1 h0.2.1 h0.2.2]
    have hres := ihj m (cdStep b off) (by omega)
      (fun i hi => by rw [← cdOffsets_shift]; exact hprev (i + 1) (by omega))
      (by rw [← cdOffsets_shift]; exact hb)
      (by rw [← cdOffsets_shift]; exact hsig)
      (by rw [← cdOffsets_shift]; exact hname)
    rw [hres, ← cdOffsets_shift]

/-- A bad signature at the first record after a clean non-matching prefix
fails the whole walk with a corrupt-archive error. -/
lemma walkCD_first_badsig {b : List Nat} :
    ∀ (k total off : Nat), k < total →
      (∀ i, i < k → cdOffsets b off i + 46 ≤ b.length ∧
        getU32D b (cdOffsets b off i) = 0x02014b50 ∧
        entryNameAt b (cdOffsets b off i) ≠ docTargetName) →
      cdOffsets b off k + 4 ≤ b.length →
      getU32D b (cdOffsets b off k) ≠ 0x02014b50 →
      walkCD b total off = .error .corruptArchive := by
  intro k
  induction k with
  | zero =>
    intro total off hk _ hb hsig
    obtain ⟨m, rfl⟩ : ∃ m, total = m + 1 := ⟨total - 1, by omega⟩
    simp only [cdOffsets] at hb hsig
    exact walkCD_badsig hb hsig
  | succ j ihj =>
    intro total off hk hprev hb hsig
    obtain ⟨m, rfl⟩ : ∃ m, total = m + 1 := ⟨total - 1, by omega⟩
    have h0 := hprev 0 (by omega)
    simp only [cdOffsets] at h0
    rw [walkCD_step h0.1 h0.2.1 h0.2.2]
    exact ihj m (cdStep b off) (by omega)
      (fun i hi => by rw [← cdOffsets_shift]; exact hprev (i + 1) (by omega))
      (by rw [← cdOffsets_shift]; exact hb)
      (by rw [← cdOffsets_shift]; exact hsig)

/-! ### End-of-central-directory scan characterization -/

lemma scanEOCD_some {b : List Nat} :
    ∀ {i r : Nat}, scanEOCD b i = some r → r ≤ i ∧ getU32D b r = eocdSig := by
  intro i
  induction i with
  | zero =>
    intro r h
    rw [scanEOCD] at h
    by_cases h0 : getU32D b 0 = eocdSig
    · rw [if_pos h0] at h
      have hr : r = 0 := (Option.some.inj h).symm
      subst hr
      exact ⟨Nat.le_refl 0, h0⟩
    · rw [if_neg h0] at h; simp at h
  | succ j ihj =>
    intro r h
    rw [scanEOCD] at h
    by_cases hj : getU32D b (j + 1) = eocdSig
    · rw [if_pos hj] at h
      have hr := (Option.some.inj h).symm
      exact ⟨by omega, by rw [hr]; exact hj⟩
    · rw [if_neg hj] at h
      obtain ⟨h1, h2⟩ := ihj h
      exact ⟨by omega, h2⟩

lemma scanEOCD_none {b : List Nat} :
    ∀ (i : Nat), (∀ j, j ≤ i → getU32D b j ≠ eocdSig) → scanEOCD b i = none := by
  intro i
  induction i with
  | zero =>
    intro h
    rw [scanEOCD, if_neg (h 0 (by omega))]
  | succ j ihj =>
    intro h
    rw [scanEOCD, if_neg (h (j + 1) (by omega))]
    exact ihj fun m hm => h m (by omega)

lemma scanEOCD_finds_zero {b : List Nat} :
    ∀ (i : Nat), getU32D b 0 = eocdSig →
      (∀ j, 0 < j → j ≤ i → getU32D b j ≠ eocdSig) → scanEOCD b i = some 0 := by
  intro i
  induction i with
  | zero => intro h0 _; rw [scanEOCD, if_pos h0]
  | succ j ihj =>
    intro h0 h
    rw [scanEOCD, if_neg (h (j + 1) (by omega) (by omega))]
    exact ihj h0 fun m hm1 hm2 => h m hm1 (by omega)

lemma scanEOCD_none_sig {b : List Nat} :
    ∀ (i : Nat), scanEOCD b i = none → ∀ j, j ≤ i → getU32D b j ≠ eocdSig := by
  intro i
  induction i with
  | zero =>
    intro h j hj
    have hj0 : j = 0 := by omega
    subst hj0
    intro hsig
    rw [scanEOCD, if_pos hsig] at h
    simp at h
  | succ m ihm =>
    intro h j hj
    rw [scanEOCD] at h
    by_cases hs : getU32D b (m + 1) = eocdSig
    · rw [if_pos hs] at h; simp at h
    · rw [if_neg hs] at h
      by_cases hjm : j ≤ m
      · exact ihm h j hjm
      · have hje : j = m + 1 := by omega
        subst hje
        exact hs

/-! ### A buffer whose only signature lies before the last 65 557 bytes -/

/-- The end-of-central-directory signature bytes, little-endian. -/
def eocdSigBytes : List Nat := [0x50, 0x4b, 0x05, 0x06]

/-- A 65 562-byte buffer whose only end-of-central-directory signature sits
at offset 0 — more than 65 557 bytes from the end. -/
def bigBuf : List Nat := eocdSigBytes ++ List.replicate 65558 0

lemma bigBuf_length : bigBuf.length = 65562 := by
  rw [bigBuf, List.length_append, List.length_replicate]
  rfl

lemma bigBuf_getD_ge4 {i : Nat} (h : 4 ≤ i) : bigBuf.getD i 0 = 0 := by
  have h4 : eocdSigBytes.length = 4 := rfl
  rw [bigBuf, List.getD, List.get?_eq_getElem?,
    List.getElem?_append_right (by rw [h4]; omega), List.getElem?_replicate]
  by_cases hlt : i - eocdSigBytes.length < 65558
  · rw [if_pos hlt]; rfl
  · rw [if_neg hlt]; rfl

lemma bigBuf_word_ge4 {j : Nat} (h : 4 ≤ j) : getU32D bigBuf j = 0 := by
  unfold getU32D
  rw [bigBuf_getD_ge4 (by omega), bigBuf_getD_ge4 (by omega),
    bigBuf_getD_ge4 (by omega), bigBuf_getD_ge4 (by omega)]

lemma bigBuf_getD_lt4 :
    bigBuf.getD 0 0 = 0x50 ∧ bigBuf.getD 1 0 = 0x4b ∧
      bigBuf.getD 2 0 = 0x05 ∧ bigBuf.getD 3 0 = 0x06 := by
  refine ⟨?_, ?_, ?_, ?_⟩ <;>
    · rw [bigBuf, List.getD, List.get?_eq_getElem?, List.getElem?_append,
        if_pos (by rw [show eocdSigBytes.length = 4 from rfl]; omega)]
      rfl

lemma bigBuf_word_0 : getU32D bigBuf 0 = eocdSig := by
  obtain ⟨g0, g1, g2, g3⟩ := bigBuf_getD_lt4
  unfold getU32D
  rw [g0, g1, g2, g3]
  decide

lemma bigBuf_word_ne {j : Nat} (h1 : 0 < j) (h2 : j ≤ 65540) :
    getU32D bigBuf j ≠ eocdSig := by
  obtain ⟨g0, g1, g2, g3⟩ := bigBuf_getD_lt4
  match j, h1 with
  | 1, _ =>
    unfold getU32D
    rw [g1, g2, g3, bigBuf_getD_ge4 (by omega)]
    decide
  | 2, _ =>
    unfold getU32D
    rw [g2, g3, bigBuf_getD_ge4 (by omega), bigBuf_getD_ge4 (by omega)]
    decide
  | 3, _ =>
    unfold getU32D
    rw [g3, bigBuf_getD_ge4 (by omega), bigBuf_getD_ge4 (by omega),
      bigBuf_getD_ge4 (by omega)]
    decide
  | (m + 4), _ =>
    rw [bigBuf_word_ge4 (by omega)]
    decide

lemma bigBuf_scan : findEndOfCentralDirectory bigBuf = some 0 := by
  unfold findEndOfCentralDirectory
  rw [bigBuf_length, if_neg (by omega)]
  show scanEOCD bigBuf 65540 = some 0
  exact scanEOCD_finds_zero 65540 bigBuf_word_0
    (fun j hj1 hj2 => bigBuf_word_ne hj1 hj2)

/-! ## Claim theorems -/

/-- C1: the spec's RTF de-escaper does not exist in the code: an uploaded
`.rtf` file takes the plain-text path, so for the spec's own sample input
`(brace)\rtf1 Hello \(apos)93World\(apos)94(brace)` the delivered text is the raw RTF
source unchanged — the brace, the backslash of `\rtf1` and the undecoded hex
escapes all remain, and neither curly quote ever appears. -/
theorem c1_rtf_passthrough :
    plainTextUpload rtfSample = rtfSample ∧
    Char.ofNat 0x7b ∈ plainTextUpload rtfSample ∧
    '\\' ∈ plainTextUpload rtfSample ∧
    lCurly ∉ plainTextUpload rtfSample ∧
    rCurly ∉ plainTextUpload rtfSample := by
  refine ⟨by decide, by decide, by decide, by decide, by decide⟩

/-- C2 counterexample: the sanitizer is not idempotent.  On
`"a\r \nb"` the space-before-newline pass creates a fresh `"\r\n"` pair
after the CRLF pass has already run, so a second application still changes
the string. -/
theorem c2_not_idempotent :
    sanitizeExtractedText (sanitizeExtractedText ("a\r \nb".toList)) ≠
      sanitizeExtractedText ("a\r \nb".toList) := by decide

/-- C2 amended: the sanitizer is idempotent on every string that contains
no carriage-return character (the replacement passes can only manufacture
new `"\r\n"` pairs out of pre-existing `'\r'` characters). -/
theorem c2_idempotent_no_cr (x : List Char) (h : '\r' ∉ x) :
    sanitizeExtractedText (sanitizeExtractedText x) = sanitizeExtractedText x :=
  sanitize_fixpoint (sanitize_no_cr h) (sanitize_inv x)

/-- C2 witness: the amended idempotence at the concrete CR-free input
`"a  b\n\nc"`. -/
theorem c2_idempotent_no_cr_witness :
    sanitizeExtractedText (sanitizeExtractedText ("a  b\n\nc".toList)) =
      sanitizeExtractedText ("a  b\n\nc".toList) :=
  c2_idempotent_no_cr ("a  b\n\nc".toList) (by decide)

/-- C3 counterexample: the end-of-central-directory scan is not bounded to
the last 65 557 bytes.  In a 65 562-byte buffer whose only signature sits at
offset 0 — more than 65 557 bytes from the end, hence to be rejected
according to the claim — the scan still finds and accepts offset 0. -/
theorem c3_scan_unbounded :
    bigBuf.length = 65562 ∧
    findEndOfCentralDirectory bigBuf = some 0 ∧
    0 + 65557 < bigBuf.length :=
  ⟨bigBuf_length, bigBuf_scan, by rw [bigBuf_length]; omega⟩

/-- C3 amended: the backward scan runs from `length - 22` all the way down
to the start of the buffer: any found offset holds the signature and leaves
room for the 22-byte record; a buffer with no signature at any such offset
(or shorter than 22 bytes) yields no record; the scan fails only on such
buffers — whenever it finds nothing, no offset up to `length - 22` holds
the signature, so a signature at any such offset, however far from the end,
is accepted; and the no-record failure surfaces as the corrupt-archive
error. -/
theorem c3_eocd_scan (b : List Nat) :
    (∀ r, findEndOfCentralDirectory b = some r →
      r + 22 ≤ b.length ∧ getU32D b r = eocdSig) ∧
    ((b.length < 22 ∨ ∀ i, i + 22 ≤ b.length → getU32D b i ≠ eocdSig) →
      findEndOfCentralDirectory b = none) ∧
    (findEndOfCentralDirectory b = none →
      b.length < 22 ∨ ∀ i, i + 22 ≤ b.length → getU32D b i ≠ eocdSig) ∧
    (∀ i, i + 22 ≤ b.length → getU32D b i = eocdSig →
      ∃ r, findEndOfCentralDirectory b = some r) ∧
    (findEndOfCentralDirectory b = none →
      ∀ prim, extractWordDocumentXml prim b = .error .corruptArchive) := by
  have hcomplete : findEndOfCentralDirectory b = none →
      b.length < 22 ∨ ∀ i, i + 22 ≤ b.length → getU32D b i ≠ eocdSig := by
    intro h
    unfold findEndOfCentralDirectory at h
    by_cases hl : b.length < 22
    · exact Or.inl hl
    · rw [if_neg hl] at h
      exact Or.inr fun i hi => scanEOCD_none_sig _ h i (by omega)
  refine ⟨?_, ?_, hcomplete, ?_, ?_⟩
  · intro r h
    unfold findEndOfCentralDirectory at h
    by_cases hl : b.length < 22
    · rw [if_pos hl] at h; simp at h
    · rw [if_neg hl] at h
      obtain ⟨h1, h2⟩ := scanEOCD_some h
      exact ⟨by omega, h2⟩
  · intro h
    unfold findEndOfCentralDirectory
    rcases h with h | h
    · rw [if_pos h]
    · by_cases hl : b.length < 22
      · rw [if_pos hl]
      · rw [if_neg hl]
        exact scanEOCD_none _ fun j hj => h j (by omega)
  · intro i hi hsig
    cases hf : findEndOfCentralDirectory b with
    | some r => exact ⟨r, rfl⟩
    | none =>
      rcases hcomplete hf with hl | hno
      · omega
      · exact absurd hsig (hno i hi)
  · intro h prim
    unfold extractWordDocumentXml
    rw [h]

/-- C3 witness: the amended characterization applied to the concrete
two-byte buffer, which is rejected. -/
theorem c3_eocd_scan_witness :
    findEndOfCentralDirectory [0, 0] = none :=
  (c3_eocd_scan [0, 0]).2.1 (Or.inl (by decide))

/-- C4 counterexample: output lines do not follow byte order across token
classes.  In `"[(A)] TJ (B) Tj"` the array-show token `[(A)] TJ` occurs
first in the byte stream, yet the output is `"B\nA"` — the simple-show line
first — not `"A\nB"`. -/
theorem c4_not_byte_order :
    extractTextFromPdf (strBytes "[(A)] TJ (B) Tj") = "B\nA".toList ∧
    extractTextFromPdf (strBytes "[(A)] TJ (B) Tj") ≠ "A\nB".toList := by
  refine ⟨by decide, by decide⟩

/-- C4 amended: each recognized token still becomes one output line, but the
output is the concatenation of two passes — all `Tj` lines, then all `TJ`
lines — and only within each pass do lines follow the byte order of their
tokens (match positions strictly increase along each pass). -/
theorem c4_two_pass_order (b : List Nat) :
    pdfSegments (latin1Decode b) =
      (pdfSimpleMatches (latin1Decode b)).map (fun m => decodePdfToken m.2) ++
        (pdfArrayMatches (latin1Decode b)).filterMap (fun m =>
          let ts := parenTokens (m.2.length + 1) m.2
          if ts = [] then none
          else some (List.flatten (ts.map decodePdfToken))) ∧
    List.Chain' (· < ·) ((pdfSimpleMatches (latin1Decode b)).map Prod.fst) ∧
    List.Chain' (· < ·) ((pdfArrayMatches (latin1Decode b)).map Prod.fst) :=
  ⟨rfl, simpleScan_chain _ 0 _, arrayScan_chain _ 0 _⟩

/-- C5: a buffer with zero recognized text-showing tokens whose decoded
(fallback) content trims to nothing fails with the distinct
empty-extraction error instead of succeeding. -/
theorem c5_empty_extraction (b : List Nat)
    (hz : pdfSegments (latin1Decode b) = [])
    (he : jsTrim (replCRLF (latin1Decode b)) = []) :
    pdfUpload b = .error .emptyExtraction := by
  have hex : extractTextFromPdf b = replCRLF (latin1Decode b) := by
    unfold extractTextFromPdf
    rw [if_pos hz]
  unfold pdfUpload
  rw [hex, if_pos he]

/-- C5 witness: a whitespace-only buffer (zero tokens) is rejected with the
empty-extraction error. -/
theorem c5_empty_extraction_witness :
    pdfUpload (strBytes "   ") = .error .emptyExtraction :=
  c5_empty_extraction (strBytes "   ") (by decide) (by decide)

/-- C6: the central-directory walk visits at most `total` records from the
central-directory offset, with the declared offset recurrence
`next = current + 46 + fileNameLength + extraLength + commentLength`:
exhausting all well-signed non-matching records fails with the
missing-entry error; the first record named `word/document.xml` after a
well-signed non-matching prefix ends the walk with that record's header
fields (first match wins); and a signature mismatch at any step fails with
the corrupt-archive error. -/
theorem c6_walker (b : List Nat) (total off : Nat) :
    ((∀ i, i < total → cdOffsets b off i + 46 ≤ b.length ∧
        getU32D b (cdOffsets b off i) = 0x02014b50 ∧
        entryNameAt b (cdOffsets b off i) ≠ docTargetName) →
      walkCD b total off = .error .missingEntry) ∧
    (∀ k, k < total →
      (∀ i, i < k → cdOffsets b off i + 46 ≤ b.length ∧
        getU32D b (cdOffsets b off i) = 0x02014b50 ∧
        entryNameAt b (cdOffsets b off i) ≠ docTargetName) →
      cdOffsets b off k + 46 ≤ b.length →
      getU32D b (cdOffsets b off k) = 0x02014b50 →
      entryNameAt b (cdOffsets b off k) = docTargetName →
      walkCD b total off =
        .ok ⟨getU32D b (cdOffsets b off k + 42),
          getU32D b (cdOffsets b off k + 20),
          u16D b (cdOffsets b off k + 10)⟩) ∧
    (∀ k, k < total →
      (∀ i, i < k → cdOffsets b off i + 46 ≤ b.length ∧
        getU32D b (cdOffsets b off i) = 0x02014b50 ∧
        entryNameAt b (cdOffsets b off i) ≠ docTargetName) →
      cdOffsets b off k + 4 ≤ b.length →
      getU32D b (cdOffsets b off k) ≠ 0x02014b50 →
      walkCD b total off = .error .corruptArchive) :=
  ⟨fun h => walkCD_missing total off h,
    fun k hk hp hb hs hn => walkCD_first_match k total off hk hp hb hs hn,
    fun k hk hp hb hs => walkCD_first_badsig k total off hk hp hb hs⟩

set_option maxRecDepth 40000 in
/-- C6 witness: on the concrete sample archive the walk of its single
central-directory record returns that record's fields. -/
theorem c6_walker_witness :
    walkCD zipSample 1 (30 + zipNameBytes.length + docXmlBytes.length) =
      .ok ⟨getU32D zipSample
          (cdOffsets zipSample (30 + zipNameBytes.length + docXmlBytes.length) 0 + 42),
        getU32D zipSample
          (cdOffsets zipSample (30 + zipNameBytes.length + docXmlBytes.length) 0 + 20),
        u16D zipSample
          (cdOffsets zipSample (30 + zipNameBytes.length + docXmlBytes.length) 0 + 10)⟩ :=
  (c6_walker zipSample 1 (30 + zipNameBytes.length + docXmlBytes.length)).2.1
    0 (by decide) (fun i hi => absurd hi (by omega)) (by decide) (by decide)
    (by decide)

/-- C7: the inflate adapter handles exactly three cases — method 0 is a
byte-identical pass-through, method 8 without a host deflate-raw primitive
fails with the unsupported-decompression error, every other method fails
with the unsupported-decompression error — and the payload slice handed to
it is exactly the declared compressed-size range: never longer than the
declared size, byte `i` of the slice is byte `dataStart + i` of the buffer
with `i` inside the declared range, and when the range lies inside the
buffer the slice has exactly the declared size. -/
theorem c7_inflate_adapter :
    (∀ prim data, inflateEntry prim 0 data = .ok data) ∧
    (∀ data, inflateEntry none 8 data = .error .decompUnsupported) ∧
    (∀ prim m data, m ≠ 0 → m ≠ 8 →
      inflateEntry prim m data = .error .decompUnsupported) ∧
    (∀ b dataStart size, (zipPayload b dataStart size).length ≤ size ∧
      (∀ i, i < (zipPayload b dataStart size).length →
        (zipPayload b dataStart size)[i]? = b[dataStart + i]? ∧ i < size) ∧
      (dataStart + size ≤ b.length → (zipPayload b dataStart size).length = size)) := by
  refine ⟨?_, ?_, ?_, ?_⟩
  · intro prim data
    rw [inflateEntry, if_pos rfl]
  · intro data
    rw [inflateEntry, if_neg (by omega), if_neg (by omega)]
    rfl
  · intro prim m data h0 h8
    rw [inflateEntry, if_neg h0, if_pos h8]
  · intro b dataStart size
    refine ⟨?_, ?_, ?_⟩
    · rw [zipPayload, List.length_take]
      omega
    · intro i hi
      rw [zipPayload, List.length_take, List.length_drop] at hi
      constructor
      · rw [zipPayload, List.getElem?_take_of_lt (by omega), List.getElem?_drop]
      · omega
    · intro hb
      rw [zipPayload, List.length_take, List.length_drop]
      omega

/-- C7 witness: the three dispatch cases and the slice bound at concrete
inputs. -/
theorem c7_inflate_adapter_witness :
    inflateEntry none 0 [9, 9] = .ok [9, 9] ∧
    inflateEntry none 8 [9, 9] = .error .decompUnsupported ∧
    inflateEntry none 5 [9, 9] = .error .decompUnsupported ∧
    (zipPayload [1, 2, 3, 4] 1 2).length = 2 :=
  ⟨c7_inflate_adapter.1 none [9, 9],
    c7_inflate_adapter.2.1 [9, 9],
    c7_inflate_adapter.2.2.1 none 5 [9, 9] (by decide) (by decide),
    (c7_inflate_adapter.2.2.2 [1, 2, 3, 4] 1 2).2.2 (by decide)⟩

set_option maxRecDepth 40000 in
/-- C8: round-trip through the full DOCX pipeline.  For the minimal
hand-built ZIP holding one stored `word/document.xml` entry whose single
paragraph's runs spell `Hello`, an explicit tab element and `World`, any
parser that maps that XML to its document tree makes extraction return
exactly `"Hello\tWorld"`, whatever the decompression primitive. -/
theorem c8_docx_roundtrip (parseFn : List Char → Option XNode)
    (prim : Option (List Nat → List Nat))
    (h : parseFn docXml = some docTree) :
    docxUpload parseFn prim zipSample = .ok ("Hello\tWorld".toList) := by
  have h1 : extractWordDocumentXml prim zipSample = .ok docXml := by
    rfl
  unfold docxUpload extractTextFromDocx
  rw [h1]
  simp only [bind, Except.bind, h]
  decide

/-- C8 witness: the round-trip at the concrete parser stand-in, with no
decompression primitive available (the entry is stored). -/
theorem c8_docx_roundtrip_witness :
    docxUpload sampleParse none zipSample = .ok ("Hello\tWorld".toList) :=
  c8_docx_roundtrip sampleParse none (by rw [sampleParse, if_pos rfl])

/-- C9: the PDF tokenizer is total by construction (it is a plain function
of the buffer), and on any non-empty buffer with zero recognized tokens it
returns the full Latin-1-decoded buffer with CRLF normalized, which is
non-empty. -/
theorem c9_pdf_fallback (b : List Nat) :
    (pdfSegments (latin1Decode b) = [] →
      extractTextFromPdf b = replCRLF (latin1Decode b)) ∧
    (b ≠ [] → pdfSegments (latin1Decode b) = [] → extractTextFromPdf b ≠ []) := by
  constructor
  · intro hz
    unfold extractTextFromPdf
    rw [if_pos hz]
  · intro hb hz
    have hex : extractTextFromPdf b = replCRLF (latin1Decode b) := by
      unfold extractTextFromPdf
      rw [if_pos hz]
    rw [hex]
    intro hnil
    have : latin1Decode b = [] := replCRLF_eq_nil_iff.mp hnil
    have : b = [] := by
      cases b with
      | nil => rfl
      | cons x xs => simp [latin1Decode] at this
    exact hb this

/-- C9 witness: the fallback on the concrete token-free buffer `"abc"`. -/
theorem c9_pdf_fallback_witness :
    extractTextFromPdf (strBytes "abc") = replCRLF (latin1Decode (strBytes "abc")) ∧
    extractTextFromPdf (strBytes "abc") ≠ [] :=
  ⟨(c9_pdf_fallback (strBytes "abc")).1 (by decide),
    (c9_pdf_fallback (strBytes "abc")).2 (by decide) (by decide)⟩

/-- C10: every sanitizer output satisfies the invariant — no NUL character,
no space/tab immediately before a newline, no run of three newlines, no
leading or trailing whitespace — and every successfully delivered
extraction result (plain-text, PDF or DOCX path) satisfies it, since each
path sanitizes before delivering. -/
theorem c10_delivered_invariant :
    (∀ x : List Char, SanitizedInv (sanitizeExtractedText x)) ∧
    (∀ content : List Char, SanitizedInv (plainTextUpload content)) ∧
    (∀ b r, pdfUpload b = .ok r → SanitizedInv r) ∧
    (∀ parseFn prim b r, docxUpload parseFn prim b = .ok r → SanitizedInv r) := by
  refine ⟨sanitize_inv, fun content => sanitize_inv content, ?_, ?_⟩
  · intro b r h
    unfold pdfUpload at h
    by_cases hc : jsTrim (extractTextFromPdf b) = []
    · rw [if_pos hc] at h
      exact absurd h (by simp)
    · rw [if_neg hc] at h
      have : sanitizeExtractedText (extractTextFromPdf b) = r := Except.ok.inj h
      rw [← this]
      exact sanitize_inv _
  · intro parseFn prim b r h
    unfold docxUpload at h
    cases hx : extractTextFromDocx parseFn prim b with
    | error e =>
      rw [hx] at h
      simp [bind, Except.bind] at h
    | ok t =>
      rw [hx] at h
      simp only [bind, Except.bind] at h
      by_cases hc : jsTrim t = []
      · rw [if_pos hc] at h
        exact absurd h (by simp)
      · rw [if_neg hc] at h
        have : sanitizeExtractedText t = r := Except.ok.inj h
        rw [← this]
        exact sanitize_inv _

/-- C10 witness: the invariant of a concrete delivered PDF result. -/
theorem c10_delivered_invariant_witness :
    SanitizedInv ("A".toList) :=
  c10_delivered_invariant.2.2.1 (strBytes "(A) Tj") ("A".toList) (by decide)

end SmartRecruit
